import Mathlib

/-!
Verification of the rune-form data-binding engine against its specification.

The development shallowly embeds the TypeScript sources:

* `src/lib/helpers.ts` — pure helpers: the ordinal remapper for touched/error
  maps (`syncTouchedStateForArraySwap`, `syncTouchedStateForArrayRemoval`,
  `shiftArrayIndicesInTouchedState`), path compilation (`compilePath`),
  cache invalidation (`clearStalePathCacheEntries`,
  `clearStaleFieldCacheEntries`), and the splice descriptor derivation
  (`arrayMethodHandler.handleSplice`).
* `src/lib/RuneForm.svelte.ts` — the engine class: `_executeArrayOperation`,
  `push` / `swap` / `splice`, `getField`, `validateSchema`, `markAllTouched`.

JavaScript strings are modelled as lists of characters (`Str`).  JavaScript
objects (`Record<string, ...>`, `Map`, `SvelteMap`) are modelled as ordered
association lists with unique keys, matching the insertion-order semantics of
JS objects: assignment to an existing key updates it in place, assignment to a
fresh key appends it, and `delete` removes the entry.

The data tree is modelled by `JSVal`.  Arrays are `JSVal.vObj true fields`:
a JS array is an object whose element slots are the string properties
"0", "1", …; none of the embedded code reads `length` except through the
explicitly modelled dense copy (`arrCopy`).
-/

/-- JavaScript strings, modelled as their character sequences. -/
abbrev Str := List Char

/-- Coerce a Lean string literal to the model string type. -/
def str (s : String) : Str := s.data

/-- Fuel-driven decimal rendering; the fuel only forces structural
termination and any fuel above the argument gives the same digits. -/
def decReprAux : Nat → Nat → Str
  | 0, _ => []
  | fuel + 1, n =>
    if n < 10 then [Char.ofNat (48 + n)]
    else decReprAux fuel (n / 10) ++ [Char.ofNat (48 + n % 10)]

/-- Canonical decimal rendering of a natural number, as produced by
JavaScript number-to-string conversion for small integers
(template interpolation, property-key coercion). -/
def decRepr (n : Nat) : Str := decReprAux (n + 1) n

theorem decReprAux_stable (n : Nat) : ∀ f1 f2 : Nat, n < f1 → n < f2 →
    decReprAux f1 n = decReprAux f2 n := by
  induction n using Nat.strong_induction_on with
  | _ n ih =>
    intro f1 f2 h1 h2
    match f1, f2 with
    | a + 1, b + 1 =>
      show (if n < 10 then [Char.ofNat (48 + n)]
          else decReprAux a (n / 10) ++ [Char.ofNat (48 + n % 10)]) =
        (if n < 10 then [Char.ofNat (48 + n)]
          else decReprAux b (n / 10) ++ [Char.ofNat (48 + n % 10)])
      by_cases h : n < 10
      · rw [if_pos h, if_pos h]
      · rw [if_neg h, if_neg h,
          ih (n / 10) (Nat.div_lt_self (by omega) (by omega)) a b (by omega) (by omega)]

theorem decRepr_def (n : Nat) : decRepr n =
    if n < 10 then [Char.ofNat (48 + n)]
    else decRepr (n / 10) ++ [Char.ofNat (48 + n % 10)] := by
  show (if n < 10 then [Char.ofNat (48 + n)]
      else decReprAux n (n / 10) ++ [Char.ofNat (48 + n % 10)]) = _
  by_cases h : n < 10
  · rw [if_pos h, if_pos h]
  · rw [if_neg h, if_neg h, decReprAux_stable (n / 10) n (n / 10 + 1)
      (by omega) (by omega)]
    rfl

/-- Numeric value of a digit character. -/
def digitVal (c : Char) : Nat := c.toNat - 48

/-- Parse a digit string to a natural number, as `parseInt(s, 10)` does on an
all-digit string. -/
def decParse (s : Str) : Nat := s.foldl (fun n c => n * 10 + digitVal c) 0

/-- A character is a decimal digit (`\d` in the source regexes). -/
def isDigitC (c : Char) : Bool := 48 ≤ c.toNat && c.toNat ≤ 57

/-- The test `/^\d+$/.test(s)` from `isArrayIndex` in helpers.ts. -/
def isNumeralStr (s : Str) : Bool := !s.isEmpty && s.all isDigitC

theorem decParse_append (a b : Str) :
    decParse (a ++ b) = b.foldl (fun n c => n * 10 + digitVal c) (decParse a) := by
  simp [decParse, List.foldl_append]

theorem decRepr_ne_nil (n : Nat) : decRepr n ≠ [] := by
  rw [decRepr_def]
  split <;> simp

theorem isDigitC_ofNat (d : Nat) (h : d < 10) : isDigitC (Char.ofNat (48 + d)) = true := by
  interval_cases d <;> decide

theorem digitVal_ofNat (d : Nat) (h : d < 10) : digitVal (Char.ofNat (48 + d)) = d := by
  interval_cases d <;> decide


theorem decRepr_all_digits (n : Nat) : (decRepr n).all isDigitC = true := by
  induction n using Nat.strong_induction_on with
  | _ n ih =>
    by_cases h : n < 10
    · rw [decRepr_def, if_pos h]
      simp [isDigitC_ofNat n h]
    · rw [decRepr_def, if_neg h, List.all_append]
      have h1 := ih (n / 10) (Nat.div_lt_self (by omega) (by omega))
      have h2 := isDigitC_ofNat (n % 10) (Nat.mod_lt n (by omega))
      simp [h1, h2]

theorem decParse_decRepr (n : Nat) : decParse (decRepr n) = n := by
  induction n using Nat.strong_induction_on with
  | _ n ih =>
    by_cases h : n < 10
    · rw [decRepr_def, if_pos h]
      simp [decParse, digitVal_ofNat n h]
    · rw [decRepr_def, if_neg h, decParse_append, ih _ (Nat.div_lt_self (by omega) (by omega))]
      simp only [List.foldl_cons, List.foldl_nil, digitVal_ofNat _ (Nat.mod_lt n (by omega))]
      omega

theorem decRepr_injective : Function.Injective decRepr := by
  intro a b h
  have ha := decParse_decRepr a
  rw [h, decParse_decRepr] at ha
  omega

/-! ### Association-list maps

JS objects and Maps with string keys.  `lookupA` is property read,
`setA` is property assignment (in-place update of an existing key, append of
a new one), `delA` is the `delete` operator. -/

/-- Property read on a JS object / Map. -/
def lookupA {α : Type} : List (Str × α) → Str → Option α
  | [], _ => none
  | (k, v) :: t, q => if k = q then some v else lookupA t q

/-- Property assignment on a JS object / Map: updates an existing key in
place, appends a fresh key. -/
def setA {α : Type} : List (Str × α) → Str → α → List (Str × α)
  | [], k, v => [(k, v)]
  | (k0, v0) :: t, k, v => if k0 = k then (k0, v) :: t else (k0, v0) :: setA t k v

/-- The `delete` operator on a JS object / `Map.delete`. -/
def delA {α : Type} : List (Str × α) → Str → List (Str × α)
  | [], _ => []
  | (k0, v0) :: t, k => if k0 = k then t else (k0, v0) :: delA t k

/-- The key list, `Object.keys` / `map.keys()` in insertion order. -/
def keysA {α : Type} (t : List (Str × α)) : List Str := t.map Prod.fst

theorem lookupA_cons {α : Type} (k0 : Str) (v0 : α) (t : List (Str × α)) (q : Str) :
    lookupA ((k0, v0) :: t) q = if k0 = q then some v0 else lookupA t q := rfl

theorem setA_cons {α : Type} (k0 : Str) (v0 : α) (t : List (Str × α)) (k : Str) (v : α) :
    setA ((k0, v0) :: t) k v = if k0 = k then (k0, v) :: t else (k0, v0) :: setA t k v := rfl

theorem delA_cons {α : Type} (k0 : Str) (v0 : α) (t : List (Str × α)) (k : Str) :
    delA ((k0, v0) :: t) k = if k0 = k then t else (k0, v0) :: delA t k := rfl

theorem lookupA_eq_none_of_not_mem {α : Type} (t : List (Str × α)) (q : Str)
    (h : q ∉ keysA t) : lookupA t q = none := by
  induction t with
  | nil => rfl
  | cons hd tl ih =>
    obtain ⟨k0, v0⟩ := hd
    simp only [keysA, List.map_cons, List.mem_cons, not_or] at h
    have hk : ¬ k0 = q := fun h2 => h.1 h2.symm
    rw [lookupA_cons, if_neg hk]
    exact ih h.2

theorem mem_keysA_of_lookupA {α : Type} (t : List (Str × α)) (q : Str) (v : α)
    (h : lookupA t q = some v) : q ∈ keysA t := by
  by_contra hq
  rw [lookupA_eq_none_of_not_mem t q hq] at h
  exact Option.noConfusion h

theorem lookupA_setA {α : Type} (t : List (Str × α)) (k q : Str) (v : α) :
    lookupA (setA t k v) q = if q = k then some v else lookupA t q := by
  induction t with
  | nil =>
    by_cases h : q = k
    · subst h
      simp [setA, lookupA]
    · have hk : ¬ k = q := fun h2 => h h2.symm
      simp [setA, lookupA, hk, h]
  | cons hd tl ih =>
    obtain ⟨k0, v0⟩ := hd
    by_cases h0 : k0 = k
    · subst h0
      by_cases h : q = k0
      · subst h
        simp [setA, lookupA]
      · have hk : ¬ k0 = q := fun h2 => h h2.symm
        simp [setA, lookupA, hk, h]
    · rw [setA_cons, if_neg h0, lookupA_cons]
      by_cases h : k0 = q
      · subst h
        have hq : ¬ k0 = k := h0
        rw [if_pos rfl, if_neg (fun h2 : k0 = k => h0 h2), lookupA_cons, if_pos rfl]
      · rw [if_neg h, ih, lookupA_cons, if_neg h]

theorem lookupA_delA {α : Type} (t : List (Str × α)) (k q : Str)
    (hnd : (keysA t).Nodup) :
    lookupA (delA t k) q = if q = k then none else lookupA t q := by
  induction t with
  | nil => simp [delA, lookupA]
  | cons hd tl ih =>
    obtain ⟨k0, v0⟩ := hd
    simp only [keysA, List.map_cons, List.nodup_cons] at hnd
    by_cases h0 : k0 = k
    · subst h0
      by_cases h : q = k0
      · subst h
        rw [delA_cons, if_pos rfl, if_pos rfl]
        exact lookupA_eq_none_of_not_mem tl q (show q ∉ tl.map Prod.fst from hnd.1)
      · have hk : ¬ k0 = q := fun h2 => h h2.symm
        rw [delA_cons, if_pos rfl, if_neg h, lookupA_cons, if_neg hk]
    · rw [delA_cons, if_neg h0, lookupA_cons]
      by_cases h : k0 = q
      · subst h
        have hq : ¬ k0 = k := h0
        rw [if_pos rfl, if_neg (fun h2 : k0 = k => h0 h2), lookupA_cons, if_pos rfl]
      · rw [if_neg h, ih hnd.2, lookupA_cons, if_neg h]

theorem keysA_setA {α : Type} (t : List (Str × α)) (k : Str) (v : α) :
    keysA (setA t k v) = if k ∈ keysA t then keysA t else keysA t ++ [k] := by
  induction t with
  | nil => simp [setA, keysA]
  | cons hd tl ih =>
    obtain ⟨k0, v0⟩ := hd
    by_cases h0 : k0 = k
    · subst h0
      rw [setA_cons, if_pos rfl]
      have hmem : k0 ∈ keysA ((k0, v0) :: tl) :=
        show k0 ∈ k0 :: tl.map Prod.fst from List.mem_cons_self _ _
      rw [if_pos hmem]
      rfl
    · rw [setA_cons, if_neg h0]
      have hne : ¬ k = k0 := fun h2 => h0 h2.symm
      simp only [keysA, List.map_cons, List.mem_cons, hne, false_or]
      rw [show keysA (setA tl k v) = List.map Prod.fst (setA tl k v) from rfl] at ih
      rw [ih]
      by_cases h : k ∈ List.map Prod.fst tl <;> simp [keysA, h]

theorem keysA_delA_subset {α : Type} (t : List (Str × α)) (k q : Str) :
    q ∈ keysA (delA t k) → q ∈ keysA t := by
  induction t with
  | nil => simp [delA]
  | cons hd tl ih =>
    obtain ⟨k0, v0⟩ := hd
    by_cases h0 : k0 = k
    · subst h0
      rw [delA_cons, if_pos rfl]
      intro h
      exact List.mem_cons_of_mem _ h
    · rw [delA_cons, if_neg h0]
      simp only [keysA, List.map_cons, List.mem_cons]
      rintro (h | h)
      · exact Or.inl h
      · exact Or.inr (ih h)

theorem nodup_setA {α : Type} (t : List (Str × α)) (k : Str) (v : α)
    (hnd : (keysA t).Nodup) : (keysA (setA t k v)).Nodup := by
  rw [keysA_setA]
  by_cases h : k ∈ keysA t
  · simpa [h] using hnd
  · rw [if_neg h]
    simp only [List.nodup_append, List.nodup_cons]
    refine ⟨hnd, by simp, ?_⟩
    intro a ha hb
    simp only [List.mem_singleton] at hb
    exact h (hb ▸ ha)

theorem nodup_delA {α : Type} (t : List (Str × α)) (k : Str)
    (hnd : (keysA t).Nodup) : (keysA (delA t k)).Nodup := by
  induction t with
  | nil => simp [delA, keysA]
  | cons hd tl ih =>
    obtain ⟨k0, v0⟩ := hd
    simp only [keysA, List.map_cons, List.nodup_cons] at hnd
    by_cases h0 : k0 = k
    · subst h0
      rw [delA_cons, if_pos rfl]
      exact hnd.2
    · rw [delA_cons, if_neg h0]
      simp only [keysA, List.map_cons, List.nodup_cons]
      exact ⟨fun hmem => hnd.1 (keysA_delA_subset tl k k0 hmem), ih hnd.2⟩

theorem lookupA_append {α : Type} (t1 t2 : List (Str × α)) (q : Str) :
    lookupA (t1 ++ t2) q = (lookupA t1 q).elim (lookupA t2 q) some := by
  induction t1 with
  | nil => simp [lookupA]
  | cons hd tl ih =>
    obtain ⟨k0, v0⟩ := hd
    by_cases h : k0 = q <;> simp [lookupA_cons, h, ih]

/-! ### String prefix tests

`startsWithS k p` models JavaScript `k.startsWith(p)`. -/

/-- JavaScript `k.startsWith(p)`. -/
def startsWithS : Str → Str → Bool
  | _, [] => true
  | [], _ :: _ => false
  | c :: k, d :: p => c = d && startsWithS k p

theorem startsWithS_iff (k p : Str) : startsWithS k p = true ↔ p <+: k := by
  induction p generalizing k with
  | nil => simp [startsWithS]
  | cons d p ih =>
    cases k with
    | nil => simp [startsWithS]
    | cons c k =>
      simp only [startsWithS, Bool.and_eq_true, decide_eq_true_eq, List.cons_prefix_cons, ih]
      exact and_congr_left fun _ => eq_comm

theorem startsWithS_append (p t : Str) : startsWithS (p ++ t) p = true := by
  rw [startsWithS_iff]
  exact List.prefix_append p t

theorem eq_append_drop_of_startsWithS (k p : Str) (h : startsWithS k p = true) :
    k = p ++ k.drop p.length := by
  rw [startsWithS_iff] at h
  obtain ⟨t, rfl⟩ := h
  simp

/-! ### Generic fold lemmas for batched map updates -/

theorem lookupA_foldl_delA {α : Type} (ks : List Str) (t : List (Str × α)) (q : Str)
    (hnd : (keysA t).Nodup) :
    lookupA (ks.foldl delA t) q = if q ∈ ks then none else lookupA t q := by
  induction ks generalizing t with
  | nil => simp
  | cons k ks ih =>
    rw [List.foldl_cons, ih (delA t k) (nodup_delA t k hnd)]
    by_cases hks : q ∈ ks
    · simp [hks]
    · rw [if_neg hks, lookupA_delA t k q hnd]
      by_cases hqk : q = k
      · simp [hqk]
      · simp [hqk, hks]

theorem nodup_foldl_delA {α : Type} (ks : List Str) (t : List (Str × α))
    (hnd : (keysA t).Nodup) : (keysA (ks.foldl delA t)).Nodup := by
  induction ks generalizing t with
  | nil => exact hnd
  | cons k ks ih => exact ih (delA t k) (nodup_delA t k hnd)

theorem lookupA_foldl_setTrue (ks : List Str) (t : List (Str × Bool)) (q : Str) :
    lookupA (ks.foldl (fun acc path => setA acc path true) t) q =
      if q ∈ ks then some true else lookupA t q := by
  induction ks generalizing t with
  | nil => simp
  | cons k ks ih =>
    rw [List.foldl_cons, ih (setA t k true)]
    by_cases hks : q ∈ ks
    · simp [hks]
    · rw [if_neg hks, lookupA_setA t k q true]
      by_cases hqk : q = k
      · simp [hqk]
      · simp [hqk, hks]

/-! ### Cache invalidation (helpers.ts)

`clearStalePathCacheEntries` collects every key of the compiled-path cache
that starts with `arrayPath + "."` and differs from `arrayPath`, then deletes
the collected keys.  `clearStaleFieldCacheEntries` collects every key of the
field-view cache that merely starts with `arrayPath` (no dot, no exclusion of
`arrayPath` itself). -/

/-- helpers.ts `clearStalePathCacheEntries`. -/
def clearStalePathCacheEntries {α : Type} (pathCache : List (Str × α)) (arrayPath : Str) :
    List (Str × α) :=
  let keysToRemove :=
    (keysA pathCache).filter fun k =>
      startsWithS k (arrayPath ++ str ".") && decide (k ≠ arrayPath)
  keysToRemove.foldl delA pathCache

/-- helpers.ts `clearStaleFieldCacheEntries`. -/
def clearStaleFieldCacheEntries {α : Type} (fieldCache : List (Str × α)) (arrayPath : Str) :
    List (Str × α) :=
  let keysToRemove := (keysA fieldCache).filter fun k => startsWithS k arrayPath
  keysToRemove.foldl delA fieldCache

theorem lookupA_clear_filter {α : Type} (t : List (Str × α)) (p : Str → Bool) (q : Str)
    (hnd : (keysA t).Nodup) :
    lookupA (((keysA t).filter p).foldl delA t) q = if p q then none else lookupA t q := by
  rw [lookupA_foldl_delA _ t q hnd]
  by_cases hp : p q
  · rw [if_pos hp]
    by_cases hq : q ∈ keysA t
    · rw [if_pos (List.mem_filter.mpr ⟨hq, hp⟩)]
    · rw [if_neg (fun hmem => hq (List.mem_filter.mp hmem).1)]
      exact lookupA_eq_none_of_not_mem t q hq
  · have : q ∉ (keysA t).filter p := fun hmem => hp (List.mem_filter.mp hmem).2
    simp [this, hp]

/-! ### The data tree

`JSVal` models the JavaScript values the engine manipulates: `undefined`,
`null`, primitives, and objects.  A JS array is `vObj true fields`: an object
whose element slots are the string properties "0", "1", …  (`Array.isArray`
is the `true` tag).  Property access on numbers coerces them to their
canonical decimal strings, which the embedding does explicitly via
`decRepr`. -/

inductive JSVal : Type where
  | vUndef : JSVal
  | vNull : JSVal
  | vPrim : Int → JSVal
  | vObj : Bool → List (Str × JSVal) → JSVal

open JSVal

/-! ### Splice descriptor derivation (helpers.ts)

`arrayMethodHandler.handleSplice` and the `splice` branch of
`handleArrayMethodTouchedState` destructure the argument list as
`const [start, deleteCount = 0, ...insertItems] = args` and then compute
`const actualDeleteCount = deleteCount ?? target.length - start`.
The destructuring default makes `deleteCount` equal to `0` whenever the
second argument is absent or `undefined`, so the left operand of `??` is
never nullish and the `target.length - start` fallback is unreachable; the
model keeps the dead fallback visible as a comment. -/

structure SpliceDescriptor where
  start : Int
  deleteCount : Int
  insertCount : Nat
deriving DecidableEq

/-- helpers.ts `arrayMethodHandler.handleSplice` (identical logic appears in
`handleArrayMethodTouchedState`, case `splice`).  `deleteCountArg = none`
models an omitted second argument. -/
def handleSplice {γ : Type} (start : Int) (deleteCountArg : Option Int)
    (insertItems : List γ) (targetLength : Nat) : SpliceDescriptor :=
  let deleteCount : Int := deleteCountArg.getD 0
  -- `deleteCount ?? targetLength - start`: the left operand is never
  -- nullish after the destructuring default, so the fallback is dead code.
  let actualDeleteCount : Int := deleteCount
  { start := start, deleteCount := actualDeleteCount, insertCount := insertItems.length }

/-! ### Validation run (RuneForm.svelte.ts `validateSchema`)

The validator is external; a run of `validateSchema` is determined by its
outcome: success, failure with an error map, or a thrown exception.  The
three phases mirror the source: `isValidating = true` before the validator
is invoked, the `try`/`catch` bodies, and the `finally` clause. -/

structure VState where
  errors : List (Str × List String)
  isValid : Bool
  isValidating : Bool
  errorCount : Nat
deriving DecidableEq

inductive VOutcome : Type where
  | ok : VOutcome
  | fail : List (Str × List String) → VOutcome
  | threw : VOutcome
deriving DecidableEq

/-- `this.isValidating = true` at the top of `validateSchema`. -/
def validateBegin (st : VState) : VState := { st with isValidating := true }

/-- The `try`/`catch` bodies of `validateSchema`: on success the error map is
cleared and `isValid` set; on failure the error map is replaced wholesale; on
a thrown validator the error map is left alone and `isValid` cleared. -/
def validateSettle (st : VState) (o : VOutcome) : VState :=
  match o with
  | .ok => { st with errors := [], isValid := true, errorCount := 0 }
  | .fail errs => { st with errors := errs, isValid := false, errorCount := errs.length }
  | .threw => { st with isValid := false, errorCount := 1 }

/-- The `finally` clause: `this.isValidating = false`. -/
def validateFinally (st : VState) : VState := { st with isValidating := false }

/-- RuneForm.svelte.ts `validateSchema`, as a function of the validator
outcome. -/
def validateSchema (st : VState) (o : VOutcome) : VState :=
  validateFinally (validateSettle (validateBegin st) o)

/-! ### Touched marking (RuneForm.svelte.ts) -/

/-- RuneForm.svelte.ts `markTouched`: `this.touched[path] = true`. -/
def markTouched (touched : List (Str × Bool)) (path : Str) : List (Str × Bool) :=
  setA touched path true

/-- RuneForm.svelte.ts `markAllTouched`: iterates `Object.keys(this.errors)`
and sets each of those paths touched. -/
def markAllTouched (touched : List (Str × Bool)) (errors : List (Str × List String)) :
    List (Str × Bool) :=
  (keysA errors).foldl (fun t path => setA t path true) touched

/-- C6: `validateSchema` sets the in-progress flag, then per outcome: success
clears the schema error map and sets `isValid`; failure replaces the error
map wholesale and clears `isValid`; a thrown validator clears `isValid` and
leaves the error map untouched (no partial error map); the in-progress flag
is cleared on every path by the `finally`. -/
theorem c6_validateSchema_contract (st : VState) (o : VOutcome) :
    (validateBegin st).isValidating = true ∧
    (validateSchema st o).isValidating = false ∧
    (validateSchema st o).errors =
      (match o with | .ok => [] | .fail errs => errs | .threw => st.errors) ∧
    (validateSchema st o).isValid = (match o with | .ok => true | .fail _ => false | .threw => false) := by
  refine ⟨rfl, rfl, ?_, ?_⟩ <;> cases o <;> rfl

/-- C10: `markAllTouched` sets touched to true exactly on the keys of the
current schema error map and leaves every other path unchanged; with an
empty error map it changes nothing. -/
theorem c10_markAllTouched (touched : List (Str × Bool)) (errors : List (Str × List String))
    (q : Str) :
    lookupA (markAllTouched touched errors) q =
      (if q ∈ keysA errors then some true else lookupA touched q) ∧
    markAllTouched touched [] = touched := by
  exact ⟨lookupA_foldl_setTrue (keysA errors) touched q, rfl⟩

/-- A key that starts with `P + "."` is strictly longer than `P`, hence
different from it. -/
theorem ne_of_dot_prefixed (q P : Str) (h : startsWithS q (P ++ str ".") = true) : q ≠ P := by
  rw [startsWithS_iff] at h
  obtain ⟨t, ht⟩ := h
  intro hq
  have hlen := congrArg List.length ht
  subst hq
  simp [str] at hlen

/-- C7 (amended): structural invalidation of the compiled-path cache drops
exactly the entries whose key starts with `P + "."` — the entry for `P`
itself and all unrelated entries survive.  The field-view cache helper
instead drops every entry whose key starts with the plain string `P`,
including the entry for `P` itself and entries like `P ++ "B"` that are not
dot-separated descendants. -/
theorem c7_cache_invalidation {α : Type} (cache : List (Str × α)) (P q : Str)
    (hnd : (keysA cache).Nodup) :
    lookupA (clearStalePathCacheEntries cache P) q =
      (if startsWithS q (P ++ str ".") then none else lookupA cache q) ∧
    lookupA (clearStaleFieldCacheEntries cache P) q =
      (if startsWithS q P then none else lookupA cache q) := by
  constructor
  · rw [show clearStalePathCacheEntries cache P =
        ((keysA cache).filter fun k =>
          startsWithS k (P ++ str ".") && decide (k ≠ P)).foldl delA cache from rfl,
      lookupA_clear_filter cache _ q hnd]
    by_cases hp : startsWithS q (P ++ str ".") = true
    · simp [hp, ne_of_dot_prefixed q P hp]
    · simp [hp]
  · rw [show clearStaleFieldCacheEntries cache P =
        ((keysA cache).filter fun k => startsWithS k P).foldl delA cache from rfl,
      lookupA_clear_filter cache _ q hnd]

/-- Witness for C7 on a concrete cache. -/
theorem c7_cache_invalidation_witness :
    lookupA (clearStalePathCacheEntries [(str "A", 1), (str "A.0", 2)] (str "A")) (str "A")
        = some 1 ∧
    lookupA (clearStalePathCacheEntries [(str "A", 1), (str "A.0", 2)] (str "A")) (str "A.0")
        = none := by
  have h := c7_cache_invalidation [(str "A", 1), (str "A.0", 2)] (str "A") (str "A") (by decide)
  have h2 := c7_cache_invalidation [(str "A", 1), (str "A.0", 2)] (str "A") (str "A.0") (by decide)
  exact ⟨by rw [h.1]; decide, by rw [h2.1]; decide⟩

/-- C7 counterexample: the claim asserts that for the field-view cache the
entry with key exactly `P`, and entries without prefix `P + "."`, survive.
`clearStaleFieldCacheEntries` deletes both the entry for `P` itself and the
entry for `P ++ "B"`. -/
theorem c7_counterexample :
    lookupA (clearStaleFieldCacheEntries [(str "A", 1), (str "AB", 2)] (str "A")) (str "A")
        = none ∧
    lookupA (clearStaleFieldCacheEntries [(str "A", 1), (str "AB", 2)] (str "A")) (str "AB")
        = none := by
  decide

/-- C3: with `deleteCount` omitted (second argument absent), splice on an
array of length 3 at start index 1 derives `deleteCount = 0`, not
`targetLength - start = 2` as the specification states (and as the native
`splice` the engine actually performs would delete). -/
theorem c3_splice_default_deleteCount_zero :
    (handleSplice 1 none ([] : List JSVal) 3).deleteCount = 0 ∧
    (handleSplice 1 none ([] : List JSVal) 3).deleteCount ≠ 3 - 1 := by
  refine ⟨rfl, ?_⟩
  intro h
  simp [handleSplice] at h

/-! ### Path compilation and tree access (helpers.ts `compilePath`,
RuneForm.svelte.ts `compilePath`)

Both implementations split the path on `"."`, convert numeral segments to
numbers (`parseInt` in helpers.ts, `Number` in the class) and record an
`isArrayIndex` flag per segment.  When a number is later used as a property
key, JavaScript coerces it back to its canonical decimal string; the model
performs that coercion eagerly, so a compiled segment is the canonical
property-key string together with its index flag. -/

/-- A compiled path segment: the property-key string actually used for
access, and the `isArrayIndex` flag. -/
abbrev Seg := Str × Bool

/-- Segment compilation shared by helpers.ts `compilePath` and
`RuneForm.compilePath`. -/
def compileKeys (path : Str) : List Seg :=
  (path.splitOn '.').map fun seg =>
    if isNumeralStr seg then (decRepr (decParse seg), true) else (seg, false)

/-- The `get` closure of a compiled path: walks the keys, returning
`undefined` as soon as the current value is nullish or not an object. -/
def jsGet : JSVal → List Str → JSVal
  | t, [] => t
  | vObj _ fs, k :: rest => jsGet ((lookupA fs k).getD vUndef) rest
  | _, _ :: _ => vUndef

/-- The `set` closure of a compiled path.  For every intermediate segment the
source tests
`typeof current !== 'object' || current === null || !(key in current) ||
typeof current[key] !== 'object'` and on success assigns a fresh `[]` or `{}`
(per the next segment's index flag) before descending; since
`typeof null === 'object'`, a `null` child passes the test and is descended
into without vivification.  Descending into `null` and then attempting a
vivifying assignment is a strict-mode `TypeError`, modelled as `none`; the
final write is guarded by `typeof current === 'object' && current !== null`
and silently skipped otherwise. -/
def jsSet : JSVal → List Seg → JSVal → Option JSVal
  | t, [], _ => some t
  | t, [k], v =>
    match t with
    | vObj a fs => some (vObj a (setA fs k.1 v))
    | _ => some t
  | t, k :: k2 :: rest, v =>
    match t with
    | vObj a fs =>
      match lookupA fs k.1 with
      | some (vObj b gs) =>
        (jsSet (vObj b gs) (k2 :: rest) v).map fun c => vObj a (setA fs k.1 c)
      | some vNull =>
        (jsSet vNull (k2 :: rest) v).map fun c => vObj a (setA fs k.1 c)
      | _ =>
        (jsSet (vObj k2.2 []) (k2 :: rest) v).map fun c => vObj a (setA fs k.1 c)
    | _ => none

/-- The walk of `set` stays on real objects: every child looked up along the
way is either a genuine object (descend), or absent / non-object (vivified);
a `null` child — which the vivification test treats as an object — and a
non-object at the final write both make the round-trip fail. -/
def setOkB : JSVal → List Seg → Bool
  | _, [] => true
  | t, [_] =>
    match t with
    | vObj _ _ => true
    | _ => false
  | t, k :: k2 :: rest =>
    match t with
    | vObj _ fs =>
      match lookupA fs k.1 with
      | some (vObj b gs) => setOkB (vObj b gs) (k2 :: rest)
      | some vNull => false
      | _ => true
    | _ => false

theorem jsGet_nil (t : JSVal) : jsGet t [] = t := by
  cases t <;> rfl

theorem setOkB_emptyObj (b : Bool) (segs : List Seg) (h : segs ≠ []) :
    setOkB (vObj b []) segs = true := by
  match segs with
  | [] => exact absurd rfl h
  | [k] => rfl
  | k :: k2 :: rest => rfl

theorem jsSet_roundtrip_aux (segs : List Seg) (t v : JSVal)
    (hne : segs ≠ []) (hok : setOkB t segs = true) :
    ∃ u, jsSet t segs v = some u ∧ jsGet u (segs.map Prod.fst) = v := by
  induction segs generalizing t with
  | nil => exact absurd rfl hne
  | cons k rest ih =>
    match rest with
    | [] =>
      match t with
      | vObj a fs =>
        refine ⟨vObj a (setA fs k.1 v), rfl, ?_⟩
        show jsGet ((lookupA (setA fs k.1 v) k.1).getD vUndef) [] = v
        rw [lookupA_setA, if_pos rfl]
        exact jsGet_nil v
      | vUndef => exact absurd hok (by simp [setOkB])
      | vNull => exact absurd hok (by simp [setOkB])
      | vPrim n => exact absurd hok (by simp [setOkB])
    | k2 :: rest2 =>
      match t with
      | vObj a fs =>
        have step :
            ∀ child : JSVal, setOkB child (k2 :: rest2) = true →
              jsSet (vObj a fs) (k :: k2 :: rest2) v =
                (jsSet child (k2 :: rest2) v).map (fun c => vObj a (setA fs k.1 c)) →
              ∃ u, jsSet (vObj a fs) (k :: k2 :: rest2) v = some u ∧
                jsGet u (List.map Prod.fst (k :: k2 :: rest2)) = v := by
          intro child hchildOk heq
          obtain ⟨c, hc1, hc2⟩ := ih child (by simp) hchildOk
          refine ⟨vObj a (setA fs k.1 c), by rw [heq, hc1]; rfl, ?_⟩
          show jsGet ((lookupA (setA fs k.1 c) k.1).getD vUndef)
              (List.map Prod.fst (k2 :: rest2)) = v
          rw [lookupA_setA, if_pos rfl]
          exact hc2
        cases hchild : lookupA fs k.1 with
        | none =>
          refine step (vObj k2.2 []) (setOkB_emptyObj _ _ (by simp)) ?_
          show (match lookupA fs k.1 with
            | some (vObj b gs) =>
              (jsSet (vObj b gs) (k2 :: rest2) v).map fun c => vObj a (setA fs k.1 c)
            | some vNull =>
              (jsSet vNull (k2 :: rest2) v).map fun c => vObj a (setA fs k.1 c)
            | _ =>
              (jsSet (vObj k2.2 []) (k2 :: rest2) v).map fun c => vObj a (setA fs k.1 c)) = _
          rw [hchild]
        | some child =>
          match child with
          | vObj b gs =>
            have hok2 : setOkB (vObj b gs) (k2 :: rest2) = true := by
              have : setOkB (vObj a fs) (k :: k2 :: rest2) =
                  (match lookupA fs k.1 with
                    | some (vObj b gs) => setOkB (vObj b gs) (k2 :: rest2)
                    | some vNull => false
                    | _ => true) := rfl
              rw [this, hchild] at hok
              exact hok
            refine step (vObj b gs) hok2 ?_
            show (match lookupA fs k.1 with
              | some (vObj b gs) =>
                (jsSet (vObj b gs) (k2 :: rest2) v).map fun c => vObj a (setA fs k.1 c)
              | some vNull =>
                (jsSet vNull (k2 :: rest2) v).map fun c => vObj a (setA fs k.1 c)
              | _ =>
                (jsSet (vObj k2.2 []) (k2 :: rest2) v).map fun c => vObj a (setA fs k.1 c)) = _
            rw [hchild]
          | vNull =>
            exfalso
            have : setOkB (vObj a fs) (k :: k2 :: rest2) =
                (match lookupA fs k.1 with
                  | some (vObj b gs) => setOkB (vObj b gs) (k2 :: rest2)
                  | some vNull => false
                  | _ => true) := rfl
            rw [this, hchild] at hok
            exact Bool.noConfusion hok
          | vUndef =>
            refine step (vObj k2.2 []) (setOkB_emptyObj _ _ (by simp)) ?_
            show (match lookupA fs k.1 with
              | some (vObj b gs) =>
                (jsSet (vObj b gs) (k2 :: rest2) v).map fun c => vObj a (setA fs k.1 c)
              | some vNull =>
                (jsSet vNull (k2 :: rest2) v).map fun c => vObj a (setA fs k.1 c)
              | _ =>
                (jsSet (vObj k2.2 []) (k2 :: rest2) v).map fun c => vObj a (setA fs k.1 c)) = _
            rw [hchild]
          | vPrim n =>
            refine step (vObj k2.2 []) (setOkB_emptyObj _ _ (by simp)) ?_
            show (match lookupA fs k.1 with
              | some (vObj b gs) =>
                (jsSet (vObj b gs) (k2 :: rest2) v).map fun c => vObj a (setA fs k.1 c)
              | some vNull =>
                (jsSet vNull (k2 :: rest2) v).map fun c => vObj a (setA fs k.1 c)
              | _ =>
                (jsSet (vObj k2.2 []) (k2 :: rest2) v).map fun c => vObj a (setA fs k.1 c)) = _
            rw [hchild]
      | vUndef => exact absurd hok (by simp [setOkB])
      | vNull => exact absurd hok (by simp [setOkB])
      | vPrim n => exact absurd hok (by simp [setOkB])

theorem compileKeys_ne_nil (path : Str) : compileKeys path ≠ [] := by
  intro h
  have := List.splitOnP_ne_nil (fun a => a == '.') path
  rw [compileKeys] at h
  rw [show path.splitOn '.' = path.splitOnP (fun a => a == '.') from rfl] at h
  exact this (List.map_eq_nil.mp h)

/-- C5 (amended): the get-after-set round-trip holds for every non-empty
path and every tree on which the `set` walk only meets real objects (in
particular no `null` intermediate, which the vivification test skips over
because `typeof null === 'object'`): `set` succeeds without a thrown
`TypeError` and a subsequent `get` over the same compiled path returns the
written value, auto-vivifying missing or non-object intermediates with an
array or object per the next segment's numeral flag. -/
theorem c5_roundtrip (path : Str) (t v : JSVal)
    (hok : setOkB t (compileKeys path) = true) :
    ∃ u, jsSet t (compileKeys path) v = some u ∧
      jsGet u ((compileKeys path).map Prod.fst) = v :=
  jsSet_roundtrip_aux (compileKeys path) t v (compileKeys_ne_nil path) hok

/-- Witness for C5 on the concrete path `"a.0.b"` and an empty tree: set
vivifies the chain and get returns the written value. -/
theorem c5_roundtrip_witness :
    setOkB (vObj false []) (compileKeys (str "a.0.b")) = true ∧
    ∃ u, jsSet (vObj false []) (compileKeys (str "a.0.b")) (vPrim 7) = some u ∧
      jsGet u ((compileKeys (str "a.0.b")).map Prod.fst) = vPrim 7 :=
  ⟨rfl, c5_roundtrip (str "a.0.b") (vObj false []) (vPrim 7) rfl⟩

/-- C5 counterexample: with tree `{a: null}` and path `"a.b"`, `set` treats
the `null` intermediate as an object (`typeof null === 'object'`), descends
into it, and the final write is silently dropped; `get` then returns
`undefined`, not the written value. -/
theorem c5_counterexample :
    jsSet (vObj false [(str "a", vNull)]) (compileKeys (str "a.b")) (vPrim 1)
        = some (vObj false [(str "a", vNull)]) ∧
    jsGet (vObj false [(str "a", vNull)]) ((compileKeys (str "a.b")).map Prod.fst)
        = vUndef ∧
    vUndef ≠ vPrim 1 := by
  refine ⟨rfl, rfl, ?_⟩
  intro h
  exact JSVal.noConfusion h

/-! ### The ordinal remapper: swap (helpers.ts `syncTouchedStateForArraySwap`)

The function filters the touched keys on the string prefixes
`` `${arrayPath}.${i}.` `` and `` `${arrayPath}.${j}.` `` — note the trailing
dot: a bare element key `P.i` with no suffix does not match — stores the
current values in a temporary map, deletes all matching keys, and re-adds
each key with the `i`/`j` prefix exchanged.  `key.replace(prefix, other)`
rewrites the first occurrence, which is the leading prefix. -/

/-- The string `` `${arrayPath}.${i}.` ``. -/
def prefIdx (arrayPath : Str) (i : Nat) : Str := arrayPath ++ str "." ++ decRepr i ++ str "."

/-- `key.replace(a, b)` for a key that starts with `a`: the first occurrence
of `a` is the leading prefix, so the result is `b` followed by the tail. -/
def replacePrefixS (k a b : Str) : Str := b ++ k.drop a.length

/-- helpers.ts `syncTouchedStateForArraySwap`. -/
def syncTouchedStateForArraySwap (touched : List (Str × Bool)) (arrayPath : Str) (i j : Nat) :
    List (Str × Bool) :=
  let touchedKeys := (keysA touched).filter fun k =>
    startsWithS k (prefIdx arrayPath i) || startsWithS k (prefIdx arrayPath j)
  let tempTouched := touchedKeys.map fun k => (k, (lookupA touched k).getD false)
  let deleted := touchedKeys.foldl delA touched
  touchedKeys.foldl (fun acc k =>
    if startsWithS k (prefIdx arrayPath i) then
      setA acc (replacePrefixS k (prefIdx arrayPath i) (prefIdx arrayPath j))
        ((lookupA tempTouched k).getD false)
    else if startsWithS k (prefIdx arrayPath j) then
      setA acc (replacePrefixS k (prefIdx arrayPath j) (prefIdx arrayPath i))
        ((lookupA tempTouched k).getD false)
    else acc) deleted

/-- The key exchange performed by the swap remapper, as a function. -/
def swapKey (arrayPath : Str) (i j : Nat) (k : Str) : Str :=
  if startsWithS k (prefIdx arrayPath i) then
    replacePrefixS k (prefIdx arrayPath i) (prefIdx arrayPath j)
  else if startsWithS k (prefIdx arrayPath j) then
    replacePrefixS k (prefIdx arrayPath j) (prefIdx arrayPath i)
  else k

/-! Digit-run boundary reasoning: a decimal numeral followed by a dot
determines the numeral, because a digit can never equal `'.'`. -/

theorem digits_dot_prefix_eq (d1 d2 u t : Str)
    (h1 : d1.all isDigitC = true) (h2 : d2.all isDigitC = true)
    (h : d2 ++ '.' :: t = d1 ++ '.' :: u) : d1 = d2 := by
  induction d1 generalizing d2 with
  | nil =>
    cases d2 with
    | nil => rfl
    | cons c2 d2 =>
      simp only [List.cons_append, List.nil_append, List.cons.injEq] at h
      rw [List.all_cons, Bool.and_eq_true] at h2
      rw [h.1] at h2
      exact absurd h2.1 (by decide)
  | cons c1 d1 ih =>
    cases d2 with
    | nil =>
      simp only [List.nil_append, List.cons_append, List.cons.injEq] at h
      rw [List.all_cons, Bool.and_eq_true] at h1
      rw [← h.1] at h1
      exact absurd h1.1 (by decide)
    | cons c2 d2 =>
      simp only [List.cons_append, List.cons.injEq] at h
      rw [List.all_cons, Bool.and_eq_true] at h1 h2
      rw [h.1, ih d2 h1.2 h2.2 h.2]

theorem prefIdx_prefix_inj (arrayPath : Str) (i j : Nat) (k : Str)
    (hi : startsWithS k (prefIdx arrayPath i) = true)
    (hj : startsWithS k (prefIdx arrayPath j) = true) : i = j := by
  rw [startsWithS_iff] at hi hj
  rcases List.prefix_or_prefix_of_prefix hi hj with h | h
  · unfold prefIdx at h
    rw [show arrayPath ++ str "." ++ decRepr i ++ str "." =
        (arrayPath ++ str ".") ++ (decRepr i ++ str ".") by simp,
      show arrayPath ++ str "." ++ decRepr j ++ str "." =
        (arrayPath ++ str ".") ++ (decRepr j ++ str ".") by simp] at h
    have h2 := (List.prefix_append_right_inj (arrayPath ++ str ".")).mp h
    obtain ⟨u, hu⟩ := h2
    exact decRepr_injective (digits_dot_prefix_eq (decRepr i) (decRepr j) u []
      (decRepr_all_digits i) (decRepr_all_digits j) (by simpa [str] using hu.symm))
  · unfold prefIdx at h
    rw [show arrayPath ++ str "." ++ decRepr i ++ str "." =
        (arrayPath ++ str ".") ++ (decRepr i ++ str ".") by simp,
      show arrayPath ++ str "." ++ decRepr j ++ str "." =
        (arrayPath ++ str ".") ++ (decRepr j ++ str ".") by simp] at h
    have h2 := (List.prefix_append_right_inj (arrayPath ++ str ".")).mp h
    obtain ⟨u, hu⟩ := h2
    exact (decRepr_injective (digits_dot_prefix_eq (decRepr j) (decRepr i) u []
      (decRepr_all_digits j) (decRepr_all_digits i) (by simpa [str] using hu.symm))).symm

theorem swapKey_of_startsWith_left (arrayPath : Str) (i j : Nat) (r : Str) :
    swapKey arrayPath i j (prefIdx arrayPath i ++ r) = prefIdx arrayPath j ++ r := by
  unfold swapKey
  rw [if_pos (startsWithS_append (prefIdx arrayPath i) r)]
  unfold replacePrefixS
  rw [List.drop_left]

theorem swapKey_of_startsWith_right (arrayPath : Str) (i j : Nat) (r : Str) :
    swapKey arrayPath i j (prefIdx arrayPath j ++ r) = prefIdx arrayPath i ++ r := by
  unfold swapKey
  by_cases hij : startsWithS (prefIdx arrayPath j ++ r) (prefIdx arrayPath i) = true
  · have := prefIdx_prefix_inj arrayPath i j (prefIdx arrayPath j ++ r) hij
      (startsWithS_append _ r)
    subst this
    rw [if_pos hij]
    unfold replacePrefixS
    rw [List.drop_left]
  · rw [if_neg hij, if_pos (startsWithS_append (prefIdx arrayPath j) r)]
    unfold replacePrefixS
    rw [List.drop_left]

theorem swapKey_of_no_match (arrayPath : Str) (i j : Nat) (k : Str)
    (hi : ¬ startsWithS k (prefIdx arrayPath i) = true)
    (hj : ¬ startsWithS k (prefIdx arrayPath j) = true) :
    swapKey arrayPath i j k = k := by
  unfold swapKey
  rw [if_neg hi, if_neg hj]

theorem swapKey_involutive (arrayPath : Str) (i j : Nat) (k : Str)
    (h : startsWithS k (prefIdx arrayPath i) = true ∨
      startsWithS k (prefIdx arrayPath j) = true) :
    swapKey arrayPath i j (swapKey arrayPath i j k) = k := by
  rcases h with h | h
  · obtain hk := eq_append_drop_of_startsWithS k (prefIdx arrayPath i) h
    rw [hk, swapKey_of_startsWith_left, swapKey_of_startsWith_right]
  · by_cases hi : startsWithS k (prefIdx arrayPath i) = true
    · obtain hk := eq_append_drop_of_startsWithS k (prefIdx arrayPath i) hi
      rw [hk, swapKey_of_startsWith_left, swapKey_of_startsWith_right]
    · obtain hk := eq_append_drop_of_startsWithS k (prefIdx arrayPath j) h
      rw [hk, swapKey_of_startsWith_right, swapKey_of_startsWith_left]

theorem lookupA_isSome_of_mem {α : Type} (t : List (Str × α)) (q : Str)
    (h : q ∈ keysA t) : ∃ v, lookupA t q = some v := by
  induction t with
  | nil => simp [keysA] at h
  | cons hd tl ih =>
    obtain ⟨k0, v0⟩ := hd
    by_cases h0 : k0 = q
    · exact ⟨v0, by rw [lookupA_cons, if_pos h0]⟩
    · rw [lookupA_cons, if_neg h0]
      refine ih ?_
      simp only [keysA, List.map_cons, List.mem_cons] at h
      rcases h with h | h
      · exact absurd h.symm h0
      · exact h

theorem lookupA_map_pair (f : Str → Bool) (ks : List Str) (k : Str) (h : k ∈ ks) :
    lookupA (ks.map fun x => (x, f x)) k = some (f k) := by
  induction ks with
  | nil => simp at h
  | cons a ks ih =>
    by_cases ha : a = k
    · subst ha
      simp [lookupA_cons]
    · rw [List.map_cons, lookupA_cons, if_neg ha]
      rcases List.mem_cons.mp h with h | h
      · exact absurd h.symm ha
      · exact ih h

theorem swap_fold_lookup (arrayPath : Str) (i j : Nat) (val : Str → Bool)
    (ks : List Str) (acc : List (Str × Bool)) (q : Str)
    (hmatch : ∀ k ∈ ks, startsWithS k (prefIdx arrayPath i) = true ∨
      startsWithS k (prefIdx arrayPath j) = true) :
    lookupA (ks.foldl (fun acc k =>
      if startsWithS k (prefIdx arrayPath i) then
        setA acc (replacePrefixS k (prefIdx arrayPath i) (prefIdx arrayPath j)) (val k)
      else if startsWithS k (prefIdx arrayPath j) then
        setA acc (replacePrefixS k (prefIdx arrayPath j) (prefIdx arrayPath i)) (val k)
      else acc) acc) q =
    if swapKey arrayPath i j q ∈ ks then some (val (swapKey arrayPath i j q))
    else lookupA acc q := by
  induction ks generalizing acc with
  | nil => simp
  | cons k ks ih =>
    have hk := hmatch k (List.mem_cons_self k ks)
    have hbody : (if startsWithS k (prefIdx arrayPath i) then
        setA acc (replacePrefixS k (prefIdx arrayPath i) (prefIdx arrayPath j)) (val k)
      else if startsWithS k (prefIdx arrayPath j) then
        setA acc (replacePrefixS k (prefIdx arrayPath j) (prefIdx arrayPath i)) (val k)
      else acc) = setA acc (swapKey arrayPath i j k) (val k) := by
      unfold swapKey
      rcases hk with hk | hk
      · rw [if_pos hk, if_pos hk]
      · by_cases hki : startsWithS k (prefIdx arrayPath i) = true
        · rw [if_pos hki, if_pos hki]
        · rw [if_neg hki, if_pos hk, if_neg hki, if_pos hk]
    rw [List.foldl_cons, hbody, ih (setA acc (swapKey arrayPath i j k) (val k))
      (fun x hx => hmatch x (List.mem_cons_of_mem k hx))]
    by_cases hin : swapKey arrayPath i j q ∈ ks
    · rw [if_pos hin, if_pos (List.mem_cons_of_mem k hin)]
    · rw [if_neg hin]
      by_cases hkq : swapKey arrayPath i j q = k
      · rw [if_pos (List.mem_cons.mpr (Or.inl hkq))]
        have hqmatch : startsWithS q (prefIdx arrayPath i) = true ∨
            startsWithS q (prefIdx arrayPath j) = true := by
          by_contra hq
          push_neg at hq
          rw [swapKey_of_no_match arrayPath i j q hq.1 hq.2] at hkq
          subst hkq
          rcases hk with hk | hk
          · exact hq.1 hk
          · exact hq.2 hk
        have hkey : swapKey arrayPath i j k = q := by
          have := congrArg (swapKey arrayPath i j) hkq
          rw [swapKey_involutive arrayPath i j q hqmatch] at this
          exact this.symm
        rw [hkey, lookupA_setA, if_pos rfl, hkq]
      · have hne : ¬ q = swapKey arrayPath i j k := by
          intro hq
          have := congrArg (swapKey arrayPath i j) hq
          rw [swapKey_involutive arrayPath i j k hk] at this
          exact hkq (by rw [this])
        rw [if_neg (fun hmem => by
          rcases List.mem_cons.mp hmem with hc | hc
          · exact hkq hc
          · exact hin hc), lookupA_setA, if_neg hne]

theorem syncSwap_lookup (touched : List (Str × Bool)) (arrayPath : Str) (i j : Nat) (q : Str)
    (hnd : (keysA touched).Nodup) :
    lookupA (syncTouchedStateForArraySwap touched arrayPath i j) q =
      (if swapKey arrayPath i j q ∈ (keysA touched).filter (fun k =>
          startsWithS k (prefIdx arrayPath i) || startsWithS k (prefIdx arrayPath j)) then
        some ((lookupA touched (swapKey arrayPath i j q)).getD false)
      else if q ∈ (keysA touched).filter (fun k =>
          startsWithS k (prefIdx arrayPath i) || startsWithS k (prefIdx arrayPath j)) then
        none
      else lookupA touched q) := by
  unfold syncTouchedStateForArraySwap
  rw [swap_fold_lookup arrayPath i j _ _ _ q (fun k hk => by
    have := (List.mem_filter.mp hk).2
    simpa using this)]
  by_cases hin : swapKey arrayPath i j q ∈ (keysA touched).filter (fun k =>
      startsWithS k (prefIdx arrayPath i) || startsWithS k (prefIdx arrayPath j))
  · rw [if_pos hin, if_pos hin,
      lookupA_map_pair (fun k => (lookupA touched k).getD false) _ _ hin]
    rfl
  · rw [if_neg hin, if_neg hin, lookupA_foldl_delA _ touched q hnd]

/-- C4 (amended): the swap remapper exchanges the `i`/`j` families only for
keys with a strict suffix (`P.i.<rest>` / `P.j.<rest>`, the trailing dot is
part of the matched prefix); a bare element key `P.i` or `P.j`, and any key
matching neither prefix, is left unchanged. -/
theorem c4_swap_suffix_exchange (touched : List (Str × Bool)) (arrayPath : Str) (i j : Nat)
    (hnd : (keysA touched).Nodup) :
    (∀ r : Str,
      lookupA (syncTouchedStateForArraySwap touched arrayPath i j) (prefIdx arrayPath i ++ r) =
        lookupA touched (prefIdx arrayPath j ++ r) ∧
      lookupA (syncTouchedStateForArraySwap touched arrayPath i j) (prefIdx arrayPath j ++ r) =
        lookupA touched (prefIdx arrayPath i ++ r)) ∧
    (∀ q : Str, ¬ startsWithS q (prefIdx arrayPath i) = true →
      ¬ startsWithS q (prefIdx arrayPath j) = true →
      lookupA (syncTouchedStateForArraySwap touched arrayPath i j) q = lookupA touched q) := by
  have filter_mem : ∀ x : Str, (x ∈ (keysA touched).filter (fun k =>
      startsWithS k (prefIdx arrayPath i) || startsWithS k (prefIdx arrayPath j))) ↔
      (x ∈ keysA touched ∧ (startsWithS x (prefIdx arrayPath i) = true ∨
        startsWithS x (prefIdx arrayPath j) = true)) := by
    intro x
    rw [List.mem_filter, Bool.or_eq_true]
  have exchange : ∀ a b : Str, swapKey arrayPath i j a = b →
      startsWithS b (prefIdx arrayPath i) = true ∨
      startsWithS b (prefIdx arrayPath j) = true →
      lookupA (syncTouchedStateForArraySwap touched arrayPath i j) a = lookupA touched b := by
    intro a b hab hbmatch
    rw [syncSwap_lookup touched arrayPath i j a hnd, hab]
    by_cases hbk : b ∈ keysA touched
    · rw [if_pos ((filter_mem b).mpr ⟨hbk, hbmatch⟩)]
      obtain ⟨v, hv⟩ := lookupA_isSome_of_mem touched b hbk
      rw [hv]
      rfl
    · rw [if_neg (fun hmem => hbk ((filter_mem b).mp hmem).1)]
      rw [lookupA_eq_none_of_not_mem touched b hbk]
      by_cases haq : a ∈ (keysA touched).filter (fun k =>
          startsWithS k (prefIdx arrayPath i) || startsWithS k (prefIdx arrayPath j))
      · rw [if_pos haq]
      · rw [if_neg haq]
        by_cases hak : a ∈ keysA touched
        · exfalso
          have hamatch : startsWithS a (prefIdx arrayPath i) = true ∨
              startsWithS a (prefIdx arrayPath j) = true := by
            by_contra ha
            push_neg at ha
            rw [swapKey_of_no_match arrayPath i j a ha.1 ha.2] at hab
            subst hab
            rcases hbmatch with hb | hb
            · exact ha.1 hb
            · exact ha.2 hb
          exact haq ((filter_mem a).mpr ⟨hak, hamatch⟩)
        · rw [lookupA_eq_none_of_not_mem touched a hak]
  constructor
  · intro r
    exact ⟨exchange (prefIdx arrayPath i ++ r) (prefIdx arrayPath j ++ r)
        (swapKey_of_startsWith_left arrayPath i j r)
        (Or.inr (startsWithS_append _ r)),
      exchange (prefIdx arrayPath j ++ r) (prefIdx arrayPath i ++ r)
        (swapKey_of_startsWith_right arrayPath i j r)
        (Or.inl (startsWithS_append _ r))⟩
  · intro q hqi hqj
    rw [syncSwap_lookup touched arrayPath i j q hnd,
      swapKey_of_no_match arrayPath i j q hqi hqj]
    have hq : ¬ q ∈ (keysA touched).filter (fun k =>
        startsWithS k (prefIdx arrayPath i) || startsWithS k (prefIdx arrayPath j)) := by
      intro hmem
      rcases ((filter_mem q).mp hmem).2 with h | h
      · exact hqi h
      · exact hqj h
    rw [if_neg hq, if_neg hq]

/-- Witness for C4 on a concrete touched map: suffix keys are exchanged, the
bare key `A.2` with no suffix stays. -/
theorem c4_swap_suffix_exchange_witness :
    lookupA (syncTouchedStateForArraySwap [(str "A.0.x", true), (str "A.2", true)]
        (str "A") 0 1) (str "A.1.x") = some true ∧
    lookupA (syncTouchedStateForArraySwap [(str "A.0.x", true), (str "A.2", true)]
        (str "A") 0 1) (str "A.2") = some true := by
  have h := c4_swap_suffix_exchange [(str "A.0.x", true), (str "A.2", true)]
    (str "A") 0 1 (by decide)
  constructor
  · have h1 := (h.1 (str "x")).2
    rw [show prefIdx (str "A") 1 ++ str "x" = str "A.1.x" from rfl,
      show prefIdx (str "A") 0 ++ str "x" = str "A.0.x" from rfl] at h1
    rw [h1]
    rfl
  · have h2 := h.2 (str "A.2") (by decide) (by decide)
    rw [h2]
    rfl

/-- C4 counterexample: the claim includes the bare keys `P.i` / `P.j` in the
exchange, but the remapper filters on the prefix `` `P.i.` `` with a trailing
dot, so the suffix-less key `A.0` is not exchanged: after `swap(A, 0, 1)` the
touched map still has `A.0` and no `A.1`. -/
theorem c4_counterexample :
    lookupA (syncTouchedStateForArraySwap [(str "A.0", true)] (str "A") 0 1) (str "A.1")
        = none ∧
    lookupA (syncTouchedStateForArraySwap [(str "A.0", true)] (str "A") 0 1) (str "A.0")
        = some true := by
  decide

/-! ### The engine state (RuneForm.svelte.ts)

One `RuneForm` instance: the data tree (behind its reactive proxy), the
touched map, the schema-error state of the validation scheduler, the custom
error map, the compiled-path cache, the field-view cache, the precomputed
valid-path set and the constraints lookup of the validator. -/

/-- A field view as returned by `_createFieldObject`, with its getters
evaluated against the state at creation time (the getters delegate to the
live maps; the inert view returned for unknown paths is a plain literal with
exactly these fields). -/
structure FieldView where
  value : JSVal
  error : Option String
  errors : List String
  touched : Bool
  constraints : List (Str × JSVal)
  isValidating : Bool

structure EngineState where
  data : JSVal
  touched : List (Str × Bool)
  customErrors : List (Str × List String)
  vstate : VState
  pathCache : List (Str × List Seg)
  fieldCache : List (Str × FieldView)
  validPaths : List Str
  attrs : List (Str × List (Str × JSVal))

/-- RuneForm.svelte.ts `compilePath`: returns the cached compilation or
compiles the path and stores it. -/
def compilePathE (st : EngineState) (path : Str) : EngineState :=
  match lookupA st.pathCache path with
  | some _ => st
  | none => { st with pathCache := setA st.pathCache path (compileKeys path) }

/-- The ordinal-normalized form used by `getField`: every numeral segment is
replaced by `"0"`. -/
def normalizePath (path : Str) : Str :=
  List.intercalate (str ".")
    ((path.splitOn '.').map fun seg => if isNumeralStr seg then str "0" else seg)

/-- RuneForm.svelte.ts `_createFieldObject`, getters evaluated: `value` reads
through the compiled path, `error` is the first schema message with the first
custom message as fallback, `errors` concatenates schema then custom
messages, `touched` defaults to false, `constraints` come from
`getInputAttributes?.(path) ?? {}`. -/
def createFieldObject (st : EngineState) (path : Str) (compiled : List Seg) : FieldView :=
  { value := jsGet st.data (compiled.map Prod.fst)
    error :=
      match (lookupA st.vstate.errors path).bind List.head? with
      | some e => some e
      | none => (lookupA st.customErrors path).bind List.head?
    errors := ((lookupA st.vstate.errors path).getD []) ++
      ((lookupA st.customErrors path).getD [])
    touched := (lookupA st.touched path).getD false
    constraints := (lookupA st.attrs path).getD []
    isValidating := st.vstate.isValidating }

/-- The inert view `getField` returns for a path outside the declared set. -/
def inertField : FieldView :=
  { value := vUndef, error := none, errors := [], touched := false, constraints := []
    isValidating := false }

/-- RuneForm.svelte.ts `getField`: compile the path (caching it), return a
cached field view if present, else check the ordinal-normalized path against
the declared path set; unknown paths get the inert view, known paths get a
fresh field view that is stored in the field-view cache. -/
def getField (st : EngineState) (path : Str) : FieldView × EngineState :=
  let st1 := compilePathE st path
  let compiled := (lookupA st1.pathCache path).getD (compileKeys path)
  match lookupA st1.fieldCache path with
  | some f => (f, st1)
  | none =>
    if normalizePath path ∈ st1.validPaths then
      let f := createFieldObject st1 path compiled
      (f, { st1 with fieldCache := setA st1.fieldCache path f })
    else (inertField, st1)

/-! ### Engine array operations (RuneForm.svelte.ts)

`_executeArrayOperation` looks the path up in the compiled-path cache and
silently returns on a miss.  On a hit it reads the array, copies it
(`[...arr]`), applies the operation to the copy, and writes the copy back
through `cached.set` — the write traverses the reactive proxy chain, and
because the copy is a fresh object the proxy set trap fires, marking the
written path touched and invoking `validateSchema`.  It then marks the
path touched again and clears the field-view cache. -/

/-- The `length` of a JS array represented as an object: one more than the
largest canonical index property (the arrays the engine manipulates are
dense, where this is exactly `arr.length`). -/
def arrLen (fields : List (Str × JSVal)) : Nat :=
  fields.foldl (fun m kv => if isNumeralStr kv.1 then max m (decParse kv.1 + 1) else m) 0

/-- The dense element list of an array object, reading slots `0 … length-1`
(`undefined` for holes). -/
def denseElems (fields : List (Str × JSVal)) : List JSVal :=
  (List.range (arrLen fields)).map fun i => (lookupA fields (decRepr i)).getD vUndef

/-- Rebuild index properties from a dense element list. -/
def indexFields (elems : List JSVal) : List (Str × JSVal) :=
  (List.range elems.length).zip elems |>.map fun p => (decRepr p.1, p.2)

/-- The spread copy `[...arr]`: a fresh dense array with the same elements. -/
def arrCopy (fields : List (Str × JSVal)) : List (Str × JSVal) :=
  indexFields (denseElems fields)

/-- The operation body of `swap`:
`[arr[i], arr[j]] = [arr[j], arr[i]]` — two reads, then two writes. -/
def swapElems (a : JSVal) (i j : Nat) : JSVal :=
  match a with
  | vObj t fs =>
    let vi := (lookupA fs (decRepr i)).getD vUndef
    let vj := (lookupA fs (decRepr j)).getD vUndef
    vObj t (setA (setA fs (decRepr i) vj) (decRepr j) vi)
  | x => x

/-- The operation body of `push`: `arr.push(value)` appends at index
`length`. -/
def pushElem (a : JSVal) (v : JSVal) : JSVal :=
  match a with
  | vObj t fs => vObj t (setA fs (decRepr (arrLen fs)) v)
  | x => x

/-- Native `Array.prototype.splice` on a dense element list: start clamped
into `[0, length]` (negative counts from the end), delete count clamped into
`[0, length - start]` and defaulting to delete-to-end when absent. -/
def spliceList (elems : List JSVal) (start : Int) (dc : Option Int) (items : List JSVal) :
    List JSVal :=
  let len : Int := elems.length
  let actualStart : Nat := (if start < 0 then max (len + start) 0 else min start len).toNat
  let actualDelete : Nat :=
    match dc with
    | none => elems.length - actualStart
    | some d => min (max d 0).toNat (elems.length - actualStart)
  elems.take actualStart ++ items ++ elems.drop (actualStart + actualDelete)

/-- The operation body of the engine `splice`:
`deleteCount !== undefined ? arr.splice(start, deleteCount, ...items)
: arr.splice(start)` — when the count is omitted the items are not passed
either. -/
def spliceArr (a : JSVal) (start : Int) (dc : Option Int) (items : List JSVal) : JSVal :=
  match a with
  | vObj t fs =>
    match dc with
    | some d => vObj t (indexFields (spliceList (denseElems fs) start (some d) items))
    | none => vObj t (indexFields (spliceList (denseElems fs) start none []))
  | x => x

/-- The path string the proxy chain reports for a write at the end of a
compiled segment list (`parentPath + "." + prop`, accumulated). -/
def renderSegs (segs : List Seg) : Str :=
  List.intercalate (str ".") (segs.map Prod.fst)

/-- RuneForm.svelte.ts `_executeArrayOperation`, parameterised by the
operation applied to the array copy and by the validator outcome of the
`validateSchema` call the proxy write trap triggers. -/
def _executeArrayOperation (st : EngineState) (path : Str) (op : JSVal → JSVal)
    (o : VOutcome) : EngineState :=
  match lookupA st.pathCache path with
  | none => st
  | some segs =>
    match jsGet st.data (segs.map Prod.fst) with
    | vObj true fields =>
      -- const newArray = [...arr]; operation(newArray)
      let newArray := op (vObj true (arrCopy fields))
      -- cached.set(this._data, newArray): the fresh array differs from the
      -- old value, so the proxy set trap marks the written path touched and
      -- invokes validateSchema
      let data1 := (jsSet st.data segs newArray).getD st.data
      let touched1 := markTouched st.touched (renderSegs segs)
      let vstate1 := validateSchema st.vstate o
      -- this.markTouched(path)
      let touched2 := markTouched touched1 path
      -- this._fieldCache.clear() (guarded by size > 0; empty either way)
      { st with data := data1, touched := touched2, vstate := vstate1, fieldCache := [] }
    | _ => st

/-- RuneForm.svelte.ts `push`. -/
def enginePush (st : EngineState) (path : Str) (v : JSVal) (o : VOutcome) : EngineState :=
  _executeArrayOperation st path (fun arr => pushElem arr v) o

/-- RuneForm.svelte.ts `swap`. -/
def engineSwap (st : EngineState) (path : Str) (i j : Nat) (o : VOutcome) : EngineState :=
  _executeArrayOperation st path (fun arr => swapElems arr i j) o

/-- RuneForm.svelte.ts `splice`. -/
def engineSplice (st : EngineState) (path : Str) (start : Int) (dc : Option Int)
    (items : List JSVal) (o : VOutcome) : EngineState :=
  _executeArrayOperation st path (fun arr => spliceArr arr start dc items) o

theorem compilePathE_fieldCache (st : EngineState) (path : Str) :
    (compilePathE st path).fieldCache = st.fieldCache := by
  unfold compilePathE
  cases lookupA st.pathCache path <;> rfl

theorem compilePathE_validPaths (st : EngineState) (path : Str) :
    (compilePathE st path).validPaths = st.validPaths := by
  unfold compilePathE
  cases lookupA st.pathCache path <;> rfl

/-- C8: a request for a path whose ordinal-normalized form is not in the
validator-declared path set returns the inert view — `undefined` value, no
error, empty error list, untouched, empty constraints — and stores nothing
in the field-view cache. -/
theorem c8_invalid_path_inert (st : EngineState) (path : Str)
    (hcache : lookupA st.fieldCache path = none)
    (hvalid : normalizePath path ∉ st.validPaths) :
    (getField st path).1 = inertField ∧
    (getField st path).2.fieldCache = st.fieldCache ∧
    (getField st path).1.value = vUndef ∧
    (getField st path).1.error = none ∧
    (getField st path).1.errors = [] ∧
    (getField st path).1.touched = false ∧
    (getField st path).1.constraints = [] := by
  have hmain : getField st path = (inertField, compilePathE st path) := by
    unfold getField
    dsimp only
    rw [compilePathE_fieldCache st path, hcache]
    dsimp only
    rw [compilePathE_validPaths st path, if_neg hvalid]
  rw [hmain, compilePathE_fieldCache st path]
  exact ⟨rfl, rfl, rfl, rfl, rfl, rfl, rfl⟩

/-- A concrete engine state used by the C8 witness: the validator declares
only the path `"name"`. -/
def c8State : EngineState :=
  { data := vObj false []
    touched := []
    customErrors := []
    vstate := { errors := [], isValid := false, isValidating := false, errorCount := 0 }
    pathCache := []
    fieldCache := []
    validPaths := [str "name"]
    attrs := [] }

/-- Witness for C8: requesting `"items.3.label"` (normalized
`"items.0.label"`) yields the inert view and leaves the field cache empty. -/
theorem c8_invalid_path_inert_witness :
    (getField c8State (str "items.3.label")).1 = inertField ∧
    (getField c8State (str "items.3.label")).2.fieldCache = [] := by
  have h := c8_invalid_path_inert c8State (str "items.3.label") rfl (by decide)
  exact ⟨h.1, h.2.1⟩

/-- C9: when the compiled-path cache has no entry for the path, `push`,
`swap` and `splice` all return without touching any part of the state. -/
theorem c9_missing_cache_noop (st : EngineState) (path : Str) (v : JSVal) (i j : Nat)
    (start : Int) (dc : Option Int) (items : List JSVal) (o : VOutcome)
    (h : lookupA st.pathCache path = none) :
    enginePush st path v o = st ∧
    engineSwap st path i j o = st ∧
    engineSplice st path start dc items o = st := by
  unfold enginePush engineSwap engineSplice _executeArrayOperation
  rw [h]
  exact ⟨rfl, rfl, rfl⟩

/-- A concrete engine state used by the C9 witness: data holds an array at
`"A"` but the compiled-path cache is empty. -/
def c9State : EngineState :=
  { data := vObj false [(str "A", vObj true [(str "0", vPrim 1), (str "1", vPrim 2)])]
    touched := [(str "A.0", true)]
    customErrors := []
    vstate := { errors := [], isValid := false, isValidating := false, errorCount := 0 }
    pathCache := []
    fieldCache := []
    validPaths := []
    attrs := [] }

/-- Witness for C9: the swap on the concrete state is a silent no-op. -/
theorem c9_missing_cache_noop_witness :
    engineSwap c9State (str "A") 0 1 VOutcome.ok = c9State :=
  (c9_missing_cache_noop c9State (str "A") (vPrim 0) 0 1 0 none [] VOutcome.ok rfl).2.1

theorem setA_setA_same {α : Type} (t : List (Str × α)) (k : Str) (v : α) :
    setA (setA t k v) k v = setA t k v := by
  induction t with
  | nil => simp [setA]
  | cons hd tl ih =>
    obtain ⟨k0, v0⟩ := hd
    by_cases h0 : k0 = k
    · subst h0
      rw [setA_cons, if_pos rfl, setA_cons, if_pos rfl]
    · rw [setA_cons, if_neg h0, setA_cons, if_neg h0, ih]

/-- C1 (amended): on a cache hit with an array at the path, the single
logical engine mutation (`push` / `swap` / `splice`, all through
`_executeArrayOperation`) updates the data, marks the array's own path
touched (once via the proxy write trap, once explicitly), synchronously runs
`validateSchema` with the validator outcome, and clears the field-view
cache; the touched map receives no other change — in particular no ordinal
remapping of the touched or error maps takes place, and the schema error map
changes only as `validateSchema` replaces it. -/
theorem c1_swap_no_remap (st : EngineState) (path : Str) (segs : List Seg)
    (fields : List (Str × JSVal)) (op : JSVal → JSVal) (o : VOutcome)
    (hc : lookupA st.pathCache path = some segs)
    (ha : jsGet st.data (segs.map Prod.fst) = vObj true fields)
    (hr : renderSegs segs = path) :
    (_executeArrayOperation st path op o).touched = setA st.touched path true ∧
    (_executeArrayOperation st path op o).vstate = validateSchema st.vstate o ∧
    (_executeArrayOperation st path op o).fieldCache = [] ∧
    (_executeArrayOperation st path op o).customErrors = st.customErrors := by
  unfold _executeArrayOperation
  rw [hc]
  dsimp only
  rw [ha]
  dsimp only
  rw [hr]
  unfold markTouched
  exact ⟨setA_setA_same st.touched path true, rfl, rfl, rfl⟩

/-- A concrete engine state used for C1: an array at `"A"` with two element
objects, the compiled path for `"A"` cached, and `A.0.x` touched. -/
def c1State : EngineState :=
  { data := vObj false [(str "A", vObj true
      [(str "0", vObj false [(str "x", vPrim 1)]),
        (str "1", vObj false [(str "x", vPrim 2)])])]
    touched := [(str "A.0.x", true)]
    customErrors := []
    vstate := { errors := [], isValid := false, isValidating := false, errorCount := 0 }
    pathCache := [(str "A", [(str "A", false)])]
    fieldCache := []
    validPaths := []
    attrs := [] }

/-- C1 counterexample: after the engine `swap(A, 0, 1)` the touched map has
not been rewritten by the ordinal remapper — the key `A.0.x` is still
touched and `A.1.x` is absent, whereas applying the remapper
(`syncTouchedStateForArraySwap`) to the same touched map moves the flag from
`A.0.x` to `A.1.x`. -/
theorem c1_counterexample :
    lookupA (engineSwap c1State (str "A") 0 1 VOutcome.ok).touched (str "A.1.x") = none ∧
    lookupA (engineSwap c1State (str "A") 0 1 VOutcome.ok).touched (str "A.0.x") = some true ∧
    lookupA (syncTouchedStateForArraySwap c1State.touched (str "A") 0 1) (str "A.1.x")
      = some true ∧
    lookupA (syncTouchedStateForArraySwap c1State.touched (str "A") 0 1) (str "A.0.x")
      = none := by
  decide

/-- Witness for C1 on the concrete state: the engine swap touches only the
array path `"A"` itself. -/
theorem c1_swap_no_remap_witness :
    (_executeArrayOperation c1State (str "A") (fun arr => swapElems arr 0 1)
        VOutcome.ok).touched = setA c1State.touched (str "A") true ∧
    (_executeArrayOperation c1State (str "A") (fun arr => swapElems arr 0 1)
        VOutcome.ok).fieldCache = [] := by
  have h := c1_swap_no_remap c1State (str "A") [(str "A", false)]
    [(str "0", vObj false [(str "x", vPrim 1)]), (str "1", vObj false [(str "x", vPrim 2)])]
    (fun arr => swapElems arr 0 1) VOutcome.ok rfl rfl rfl
  exact ⟨h.1, h.2.2.1⟩

/-! ### The ordinal remapper: removal
(helpers.ts `syncTouchedStateForArrayRemoval`, `shiftArrayIndicesInTouchedState`)

The removal remapper first deletes, for each removed ordinal `s+i`, every
touched key matched by the regex `^P\.(s+i)(?:\.|$)` (a literal prefix
`P.` + the decimal numeral + a dot-or-end boundary; `escapeRegex` only makes
the interpolated path match literally).  It then calls the shift helper with
the original key snapshot, the same start index and shift amount
`-deleteCount`.  The shift helper selects the keys matched by
`^P\.(\d+)(?:\.|$)` whose parsed index is at least the start index, sorts
them by index — ascending for a negative shift, descending for a positive
one; `Array.prototype.sort` is stable, as is the insertion sort used here —
and moves each entry to its reindexed key, skipping entries whose new index
would be negative and entries already deleted from the map. -/

/-- Decompose a key against the patterns `^P\.(\d+)(?:\.|$)` /
`^P\.(\d+)(?:\.(.*))?$`: the digit run after `P.` plus the optional suffix
after the following dot.  Both regexes accept exactly the keys on which this
returns `some`. -/
def splitRaw (arrayPath k : Str) : Option (Str × Option Str) :=
  if startsWithS k (arrayPath ++ str ".") then
    let s := k.drop (arrayPath ++ str ".").length
    let ds := s.takeWhile isDigitC
    if ds = [] then none
    else
      match s.drop ds.length with
      | [] => some (ds, none)
      | c :: r => if c = '.' then some (ds, some r) else none
  else none

/-- The delete-loop regex `^P\.N(?:\.|$)` with the literal numeral `N`:
the key starts with `P.N` and the next character is a dot or the end. -/
def matchIdx (arrayPath : Str) (n : Nat) (k : Str) : Bool :=
  startsWithS k (arrayPath ++ str "." ++ decRepr n) &&
    (match k.drop (arrayPath ++ str "." ++ decRepr n).length with
     | [] => true
     | c :: _ => c = '.')

/-- `parseInt(match[1], 10)` for a key matched by the index pattern (0 for
unmatched keys; the sort comparator only sees matched keys). -/
def idxOfKey (arrayPath : Str) (k : Str) : Nat :=
  match splitRaw arrayPath k with
  | some (ds, _) => decParse ds
  | none => 0

/-- Ascending comparison by parsed index (the comparator
`parseInt(matchA[1]) - parseInt(matchB[1])`). -/
def leIdx (arrayPath : Str) (a b : Str) : Prop :=
  idxOfKey arrayPath a ≤ idxOfKey arrayPath b

/-- Descending comparison by parsed index (the comparator
`parseInt(matchB[1]) - parseInt(matchA[1])`, used for insertions). -/
def geIdx (arrayPath : Str) (a b : Str) : Prop :=
  idxOfKey arrayPath b ≤ idxOfKey arrayPath a

instance (arrayPath : Str) : DecidableRel (leIdx arrayPath) :=
  fun a b => Nat.decLe (idxOfKey arrayPath a) (idxOfKey arrayPath b)

instance (arrayPath : Str) : DecidableRel (geIdx arrayPath) :=
  fun a b => Nat.decLe (idxOfKey arrayPath b) (idxOfKey arrayPath a)

instance (arrayPath : Str) : IsTotal Str (leIdx arrayPath) :=
  ⟨fun a b => Nat.le_total (idxOfKey arrayPath a) (idxOfKey arrayPath b)⟩

instance (arrayPath : Str) : IsTrans Str (leIdx arrayPath) :=
  ⟨fun _ _ _ => Nat.le_trans⟩

instance (arrayPath : Str) : IsTotal Str (geIdx arrayPath) :=
  ⟨fun a b => Nat.le_total (idxOfKey arrayPath b) (idxOfKey arrayPath a)⟩

instance (arrayPath : Str) : IsTrans Str (geIdx arrayPath) :=
  ⟨fun _ _ _ h1 h2 => Nat.le_trans h2 h1⟩

/-- The body of the shift loop: re-match the key, compute the shifted index,
skip a negative result, rebuild the key (`restOfPath ? `P.new.rest` :
`P.new``, where a missing or empty capture both yield the bare form), and
move the entry — write the new key first, then delete the old one — if the
entry still exists. -/
def shiftStep (arrayPath : Str) (shiftAmount : Int) (t : List (Str × Bool)) (k : Str) :
    List (Str × Bool) :=
  match splitRaw arrayPath k with
  | none => t
  | some (ds, rest) =>
    let newIndex : Int := (decParse ds : Int) + shiftAmount
    if newIndex < 0 then t
    else
      let restOfPath := rest.getD []
      let newKey :=
        if restOfPath = [] then arrayPath ++ str "." ++ decRepr newIndex.toNat
        else arrayPath ++ str "." ++ decRepr newIndex.toNat ++ str "." ++ restOfPath
      match lookupA t k with
      | some v => delA (setA t newKey v) k
      | none => t

/-- helpers.ts `shiftArrayIndicesInTouchedState`. -/
def shiftArrayIndicesInTouchedState (touched : List (Str × Bool)) (touchedKeys : List Str)
    (arrayPath : Str) (startIndex : Nat) (shiftAmount : Int) : List (Str × Bool) :=
  let keysToShift := touchedKeys.filter fun k =>
    match splitRaw arrayPath k with
    | some (ds, _) => decide (startIndex ≤ decParse ds)
    | none => false
  let sorted :=
    if shiftAmount > 0 then List.insertionSort (geIdx arrayPath) keysToShift
    else List.insertionSort (leIdx arrayPath) keysToShift
  sorted.foldl (shiftStep arrayPath shiftAmount) touched

/-- helpers.ts `getTouchedKeysForArray`: the touched keys strictly below the
array path. -/
def getTouchedKeysForArray (touched : List (Str × Bool)) (arrayPath : Str) : List Str :=
  (keysA touched).filter fun k =>
    startsWithS k (arrayPath ++ str ".") && decide (k ≠ arrayPath)

/-- helpers.ts `syncTouchedStateForArrayRemoval`. -/
def syncTouchedStateForArrayRemoval (touched : List (Str × Bool)) (arrayPath : Str)
    (startIndex deleteCount : Nat) : List (Str × Bool) :=
  let touchedKeys := getTouchedKeysForArray touched arrayPath
  let afterDelete := (List.range deleteCount).foldl (fun acc i =>
    (touchedKeys.filter (matchIdx arrayPath (startIndex + i))).foldl delA acc) touched
  shiftArrayIndicesInTouchedState afterDelete touchedKeys arrayPath startIndex
    (-(deleteCount : Int))

/-- The canonical bookkeeping key for element `idx` of the array at
`arrayPath`, with an optional (non-empty) deeper suffix. -/
def mkKey (arrayPath : Str) (idx : Nat) (rest : Option Str) : Str :=
  match rest with
  | none => arrayPath ++ str "." ++ decRepr idx
  | some r => arrayPath ++ str "." ++ decRepr idx ++ str "." ++ r


theorem str_dot : str "." = ['.'] := rfl

theorem takeWhile_digits_append (l t : Str) (hl : l.all isDigitC = true)
    (ht : ∀ c r, t = c :: r → isDigitC c = false) :
    (l ++ t).takeWhile isDigitC = l := by
  induction l with
  | nil =>
    cases t with
    | nil => rfl
    | cons c r =>
      rw [List.nil_append, List.takeWhile_cons, ht c r rfl]
      rfl
  | cons c l ih =>
    rw [List.all_cons, Bool.and_eq_true] at hl
    rw [List.cons_append, List.takeWhile_cons, hl.1, if_pos rfl, ih hl.2]

/-- The tail of `mkKey` after the numeral. -/
def restTail (rest : Option Str) : Str :=
  match rest with
  | none => []
  | some r => '.' :: r

theorem mkKey_decompose (arrayPath : Str) (idx : Nat) (rest : Option Str) :
    mkKey arrayPath idx rest = (arrayPath ++ str ".") ++ (decRepr idx ++ restTail rest) := by
  cases rest <;> simp [mkKey, restTail, str_dot]

theorem restTail_head_not_digit (rest : Option Str) :
    ∀ c r, restTail rest = c :: r → isDigitC c = false := by
  intro c r h
  cases rest with
  | none => exact absurd h (by simp [restTail])
  | some r2 =>
    simp only [restTail, List.cons.injEq] at h
    rw [← h.1]
    decide

theorem digits_boundary_eq (d1 d2 t1 t2 : Str)
    (h1 : d1.all isDigitC = true) (h2 : d2.all isDigitC = true)
    (ht1 : ∀ c r, t1 = c :: r → isDigitC c = false)
    (ht2 : ∀ c r, t2 = c :: r → isDigitC c = false)
    (h : d1 ++ t1 = d2 ++ t2) : d1 = d2 := by
  induction d1 generalizing d2 with
  | nil =>
    cases d2 with
    | nil => rfl
    | cons c2 d2 =>
      rw [List.all_cons, Bool.and_eq_true] at h2
      simp only [List.nil_append, List.cons_append] at h
      exact absurd h2.1 (by rw [ht1 c2 (d2 ++ t2) h]; decide)
  | cons c1 d1 ih =>
    cases d2 with
    | nil =>
      rw [List.all_cons, Bool.and_eq_true] at h1
      simp only [List.cons_append, List.nil_append] at h
      exact absurd h1.1 (by rw [ht2 c1 (d1 ++ t1) h.symm]; decide)
    | cons c2 d2 =>
      rw [List.all_cons, Bool.and_eq_true] at h1 h2
      simp only [List.cons_append, List.cons.injEq] at h
      rw [h.1, ih d2 h1.2 h2.2 h.2]

theorem mkKey_inj (arrayPath : Str) (a b : Nat) (ra rb : Option Str)
    (h : mkKey arrayPath a ra = mkKey arrayPath b rb) : a = b ∧ ra = rb := by
  rw [mkKey_decompose, mkKey_decompose] at h
  have h2 := List.append_cancel_left h
  have hd : decRepr a = decRepr b :=
    digits_boundary_eq (decRepr a) (decRepr b) (restTail ra) (restTail rb)
      (decRepr_all_digits a) (decRepr_all_digits b)
      (restTail_head_not_digit ra) (restTail_head_not_digit rb) h2
  refine ⟨decRepr_injective hd, ?_⟩
  rw [hd] at h2
  have h3 := List.append_cancel_left h2
  cases ra with
  | none =>
    cases rb with
    | none => rfl
    | some r2 => exact absurd h3 (by simp [restTail])
  | some r1 =>
    cases rb with
    | none => exact absurd h3 (by simp [restTail])
    | some r2 =>
      simp only [restTail, List.cons.injEq] at h3
      rw [h3.2]

theorem splitRaw_mkKey (arrayPath : Str) (idx : Nat) (rest : Option Str) :
    splitRaw arrayPath (mkKey arrayPath idx rest) = some (decRepr idx, rest) := by
  have hpre : startsWithS ((arrayPath ++ str ".") ++ (decRepr idx ++ restTail rest))
      (arrayPath ++ str ".") = true := startsWithS_append _ _
  rw [mkKey_decompose]
  unfold splitRaw
  rw [if_pos hpre]
  dsimp only
  rw [List.drop_left,
    takeWhile_digits_append (decRepr idx) (restTail rest) (decRepr_all_digits idx)
      (restTail_head_not_digit rest),
    if_neg (decRepr_ne_nil idx), List.drop_left]
  cases rest with
  | none => rfl
  | some r =>
    show (if ('.' : Char) = '.' then some (decRepr idx, some r) else none) = _
    rw [if_pos rfl]

theorem idxOfKey_mkKey (arrayPath : Str) (idx : Nat) (rest : Option Str) :
    idxOfKey arrayPath (mkKey arrayPath idx rest) = idx := by
  unfold idxOfKey
  rw [splitRaw_mkKey]
  exact decParse_decRepr idx

theorem startsWithS_mkKey (arrayPath : Str) (idx : Nat) (rest : Option Str) :
    startsWithS (mkKey arrayPath idx rest) (arrayPath ++ str ".") = true := by
  rw [mkKey_decompose]
  exact startsWithS_append _ _

theorem startsWithS_trans_pre (q a b : Str) (h : startsWithS q a = true)
    (hba : b <+: a) : startsWithS q b = true := by
  rw [startsWithS_iff] at h
  rw [startsWithS_iff]
  exact hba.trans h

theorem matchIdx_false_of_not_prefixed (arrayPath : Str) (n : Nat) (q : Str)
    (hq : ¬ startsWithS q (arrayPath ++ str ".") = true) :
    matchIdx arrayPath n q = false := by
  unfold matchIdx
  rw [Bool.and_eq_false_iff]
  left
  rw [Bool.eq_false_iff]
  intro hpre
  refine hq (startsWithS_trans_pre q (arrayPath ++ str "." ++ decRepr n) _ hpre ?_)
  rw [show arrayPath ++ str "." ++ decRepr n = (arrayPath ++ str ".") ++ decRepr n by simp]
  exact List.prefix_append _ _

theorem splitRaw_none_of_not_prefixed (arrayPath : Str) (q : Str)
    (hq : ¬ startsWithS q (arrayPath ++ str ".") = true) :
    splitRaw arrayPath q = none := by
  unfold splitRaw
  rw [if_neg hq]

theorem matchIdx_mkKey (arrayPath : Str) (n m : Nat) (rest : Option Str) :
    matchIdx arrayPath n (mkKey arrayPath m rest) = true ↔ n = m := by
  constructor
  · intro h
    unfold matchIdx at h
    rw [Bool.and_eq_true] at h
    obtain ⟨hpre, hbound⟩ := h
    rw [startsWithS_iff] at hpre
    rw [mkKey_decompose,
      show arrayPath ++ str "." ++ decRepr n = (arrayPath ++ str ".") ++ decRepr n by simp]
      at hpre
    obtain ⟨z, hz⟩ := (List.prefix_append_right_inj (arrayPath ++ str ".")).mp hpre
    have hkey : mkKey arrayPath m rest =
        ((arrayPath ++ str ".") ++ decRepr n) ++ z := by
      rw [mkKey_decompose, ← hz]
      simp
    have hdrop : (mkKey arrayPath m rest).drop
        (arrayPath ++ str "." ++ decRepr n).length = z := by
      rw [hkey, show ((arrayPath ++ str ".") ++ decRepr n) ++ z =
        (arrayPath ++ str "." ++ decRepr n) ++ z by simp, List.drop_left]
    rw [hdrop] at hbound
    have hzshape : ∀ c r, z = c :: r → isDigitC c = false := by
      intro c r hcr
      subst hcr
      have hc : c = '.' := of_decide_eq_true hbound
      rw [hc]
      decide
    have hd : decRepr n = decRepr m :=
      digits_boundary_eq (decRepr n) (decRepr m) z (restTail rest)
        (decRepr_all_digits n) (decRepr_all_digits m)
        hzshape (restTail_head_not_digit rest) hz
    exact decRepr_injective hd
  · intro h
    subst h
    unfold matchIdx
    rw [Bool.and_eq_true]
    constructor
    · rw [mkKey_decompose,
        show arrayPath ++ str "." ++ decRepr n = (arrayPath ++ str ".") ++ decRepr n by simp,
        ← List.append_assoc]
      exact startsWithS_append _ _
    · have hdrop : (mkKey arrayPath n rest).drop
          (arrayPath ++ str "." ++ decRepr n).length = restTail rest := by
        rw [mkKey_decompose, ← List.append_assoc,
          show (arrayPath ++ str ".") ++ decRepr n = arrayPath ++ str "." ++ decRepr n
            by simp, List.drop_left]
      rw [hdrop]
      cases rest with
      | none => rfl
      | some r => simp [restTail]

theorem lookupA_foldl_delA_filterKs (p : Str → Bool) (ks : List Str)
    (acc : List (Str × Bool)) (q : Str) (hnd : (keysA acc).Nodup) :
    lookupA ((ks.filter p).foldl delA acc) q =
      if p q = true ∧ q ∈ ks then none else lookupA acc q := by
  rw [lookupA_foldl_delA _ acc q hnd]
  by_cases h : p q = true ∧ q ∈ ks
  · rw [if_pos h, if_pos (List.mem_filter.mpr ⟨h.2, h.1⟩)]
  · rw [if_neg h, if_neg (fun hmem => h ⟨(List.mem_filter.mp hmem).2,
      (List.mem_filter.mp hmem).1⟩)]

theorem afterDelete_nodup (P : Str) (is : List Nat) (ks : List Str)
    (t : List (Str × Bool)) (hnd : (keysA t).Nodup) :
    (keysA (is.foldl (fun acc i => (ks.filter (matchIdx P i)).foldl delA acc) t)).Nodup := by
  induction is generalizing t with
  | nil => exact hnd
  | cons i is ih =>
    rw [List.foldl_cons]
    exact ih _ (nodup_foldl_delA _ t hnd)

theorem afterDelete_lookup (P : Str) (is : List Nat) (ks : List Str)
    (t : List (Str × Bool)) (q : Str) (hnd : (keysA t).Nodup) :
    lookupA (is.foldl (fun acc i => (ks.filter (matchIdx P i)).foldl delA acc) t) q =
      if (is.any fun i => matchIdx P i q) = true ∧ q ∈ ks then none else lookupA t q := by
  induction is generalizing t with
  | nil => simp
  | cons i is ih =>
    rw [List.foldl_cons, ih _ (nodup_foldl_delA _ t hnd),
      lookupA_foldl_delA_filterKs (matchIdx P i) ks t q hnd]
    by_cases hq : q ∈ ks
    · by_cases ha : (is.any fun i => matchIdx P i q) = true
      · rw [if_pos ⟨ha, hq⟩,
          if_pos ⟨show ((i :: is).any fun j => matchIdx P j q) = true by
            simp [List.any_cons, ha], hq⟩]
      · rw [if_neg (fun hc => ha hc.1)]
        by_cases hi : matchIdx P i q = true
        · rw [if_pos ⟨hi, hq⟩,
            if_pos ⟨show ((i :: is).any fun j => matchIdx P j q) = true by
              simp [List.any_cons, hi], hq⟩]
        · rw [if_neg (fun hc => hi hc.1), if_neg (fun hc => by
            rcases (by simpa [List.any_cons] using hc.1 :
              matchIdx P i q = true ∨ (is.any fun j => matchIdx P j q) = true) with h | h
            · exact hi h
            · exact ha h)]
    · rw [if_neg (fun hc => hq hc.2), if_neg (fun hc => hq hc.2),
        if_neg (fun hc => hq hc.2)]

theorem splitRaw_some_prefixed (arrayPath q : Str) (x : Str × Option Str)
    (h : splitRaw arrayPath q = some x) :
    startsWithS q (arrayPath ++ str ".") = true := by
  by_contra hq
  rw [splitRaw_none_of_not_prefixed arrayPath q hq] at h
  exact Option.noConfusion h

theorem shiftStep_nodup (P : Str) (amt : Int) (t : List (Str × Bool)) (k : Str)
    (hnd : (keysA t).Nodup) : (keysA (shiftStep P amt t k)).Nodup := by
  unfold shiftStep
  cases splitRaw P k with
  | none => exact hnd
  | some x =>
    obtain ⟨ds, rest⟩ := x
    dsimp only
    split
    · exact hnd
    · cases lookupA t k with
      | none => exact hnd
      | some v => exact nodup_delA _ _ (nodup_setA _ _ _ hnd)

theorem shift_fold_nodup (P : Str) (amt : Int) (ks : List Str) (t : List (Str × Bool))
    (hnd : (keysA t).Nodup) : (keysA (ks.foldl (shiftStep P amt) t)).Nodup := by
  induction ks generalizing t with
  | nil => exact hnd
  | cons k ks ih => exact ih _ (shiftStep_nodup P amt t k hnd)

theorem shiftStep_frame (P : Str) (amt : Int) (t : List (Str × Bool)) (k q : Str)
    (hnd : (keysA t).Nodup)
    (hq : ¬ startsWithS q (P ++ str ".") = true) :
    lookupA (shiftStep P amt t k) q = lookupA t q := by
  unfold shiftStep
  cases hsr : splitRaw P k with
  | none => rfl
  | some x =>
    obtain ⟨ds, rest⟩ := x
    have hkpre := splitRaw_some_prefixed P k (ds, rest) hsr
    dsimp only
    split
    · rfl
    · cases hlk : lookupA t k with
      | none => rfl
      | some v =>
        have hqk : ¬ q = k := fun hc => hq (hc ▸ hkpre)
        have hnewpre : startsWithS
            (if rest.getD [] = [] then P ++ str "." ++ decRepr ((decParse ds : Int) + amt).toNat
              else P ++ str "." ++ decRepr ((decParse ds : Int) + amt).toNat ++ str "." ++
                rest.getD []) (P ++ str ".") = true := by
          split
          · exact startsWithS_mkKey P _ none
          · exact startsWithS_mkKey P _ (some (rest.getD []))
        have hqn : ¬ q = (if rest.getD [] = [] then
            P ++ str "." ++ decRepr ((decParse ds : Int) + amt).toNat
            else P ++ str "." ++ decRepr ((decParse ds : Int) + amt).toNat ++ str "." ++
              rest.getD []) := fun hc => hq (hc ▸ hnewpre)
        rw [lookupA_delA _ _ _ (nodup_setA _ _ _ hnd), if_neg hqk, lookupA_setA,
          if_neg hqn]

theorem shift_fold_frame (P : Str) (amt : Int) (ks : List Str) (t : List (Str × Bool))
    (q : Str) (hnd : (keysA t).Nodup)
    (hq : ¬ startsWithS q (P ++ str ".") = true) :
    lookupA (ks.foldl (shiftStep P amt) t) q = lookupA t q := by
  induction ks generalizing t with
  | nil => rfl
  | cons k ks ih =>
    rw [List.foldl_cons, ih _ (shiftStep_nodup P amt t k hnd),
      shiftStep_frame P amt t k q hnd hq]

theorem shiftStep_eval_skip_neg (P : Str) (c : Nat) (t : List (Str × Bool)) (n : Nat)
    (restk : Option Str) (hneg : n < c) :
    shiftStep P (-(c : Int)) t (mkKey P n restk) = t := by
  unfold shiftStep
  rw [splitRaw_mkKey]
  dsimp only
  rw [decParse_decRepr]
  rw [if_pos (by omega : (n : Int) + -(c : Int) < 0)]

theorem shiftStep_eval_dead (P : Str) (c : Nat) (t : List (Str × Bool)) (n : Nat)
    (restk : Option Str) (hge : c ≤ n)
    (hdead : lookupA t (mkKey P n restk) = none) :
    shiftStep P (-(c : Int)) t (mkKey P n restk) = t := by
  unfold shiftStep
  rw [splitRaw_mkKey]
  dsimp only
  rw [decParse_decRepr]
  rw [if_neg (by omega : ¬ (n : Int) + -(c : Int) < 0), hdead]

theorem shiftStep_eval_alive (P : Str) (c : Nat) (t : List (Str × Bool)) (n : Nat)
    (restk : Option Str) (v : Bool) (hge : c ≤ n) (hrest : restk ≠ some [])
    (halive : lookupA t (mkKey P n restk) = some v) :
    shiftStep P (-(c : Int)) t (mkKey P n restk) =
      delA (setA t (mkKey P (n - c) restk) v) (mkKey P n restk) := by
  unfold shiftStep
  rw [splitRaw_mkKey]
  dsimp only
  rw [decParse_decRepr]
  rw [if_neg (by omega : ¬ (n : Int) + -(c : Int) < 0), halive]
  have htn : ((n : Int) + -(c : Int)).toNat = n - c := by omega
  cases restk with
  | none =>
    show delA (setA t (P ++ str "." ++ decRepr ((n : Int) + -(c : Int)).toNat) v) _ = _
    rw [htn]
    rfl
  | some r =>
    have hr : r ≠ [] := fun hc => hrest (by rw [hc])
    show delA (setA t (if r = [] then P ++ str "." ++ decRepr ((n : Int) + -(c : Int)).toNat
      else P ++ str "." ++ decRepr ((n : Int) + -(c : Int)).toNat ++ str "." ++ r) v) _ = _
    rw [if_neg hr, htn]
    rfl


/-- Pointwise characterization of the ascending shift fold used by the
removal remapper.  Processing a sorted list of well-formed keys whose
sub-threshold entries are already deleted, the slot of `P.m[.rest]` ends up
holding the original entry of `P.(m+c)[.rest]` whenever that source key is
being shifted and alive, becomes empty if the queried key itself was shifted
away, and is untouched otherwise. -/
theorem shift_fold_lookup_rm (P : Str) (s c : Nat) (hc : 1 ≤ c) (m : Nat)
    (rest : Option Str) (hrest : rest ≠ some []) :
    ∀ (ks : List Str) (t : List (Str × Bool)),
    (keysA t).Nodup → ks.Nodup → List.Pairwise (leIdx P) ks →
    (∀ k ∈ ks, ∃ n restk, k = mkKey P n restk ∧ restk ≠ some [] ∧ s ≤ n) →
    (∀ k ∈ ks, idxOfKey P k < s + c → lookupA t k = none) →
    lookupA (ks.foldl (shiftStep P (-(c : Int))) t) (mkKey P m rest) =
      if mkKey P (m + c) rest ∈ ks ∧ lookupA t (mkKey P (m + c) rest) ≠ none
      then lookupA t (mkKey P (m + c) rest)
      else if mkKey P m rest ∈ ks ∧ lookupA t (mkKey P m rest) ≠ none
      then none
      else lookupA t (mkKey P m rest) := by
  intro ks
  induction ks with
  | nil =>
    intro t hndt _ _ _ _
    have h1 : ¬(mkKey P (m + c) rest ∈ ([] : List Str) ∧
        lookupA t (mkKey P (m + c) rest) ≠ none) := fun hc2 => List.not_mem_nil _ hc2.1
    have h2 : ¬(mkKey P m rest ∈ ([] : List Str) ∧
        lookupA t (mkKey P m rest) ≠ none) := fun hc2 => List.not_mem_nil _ hc2.1
    rw [if_neg h1, if_neg h2]
    rfl
  | cons k ks ih =>
    intro t hndt hndks hsort hshape hdead
    obtain ⟨n, restk, hkeq, hrestk, hsn⟩ := hshape k (List.mem_cons_self k ks)
    subst hkeq
    rw [List.pairwise_cons] at hsort
    rw [List.nodup_cons] at hndks
    have hKlt : ∀ x ∈ ks, n ≤ idxOfKey P x := by
      intro x hx
      have hx2 := hsort.1 x hx
      unfold leIdx at hx2
      rw [idxOfKey_mkKey] at hx2
      exact hx2
    rw [List.foldl_cons]
    -- a tail-only rewrite of the conclusion, shared by the two skip branches
    have skipCase : lookupA t (mkKey P n restk) = none →
        (if mkKey P (m + c) rest ∈ ks ∧ lookupA t (mkKey P (m + c) rest) ≠ none
          then lookupA t (mkKey P (m + c) rest)
          else if mkKey P m rest ∈ ks ∧ lookupA t (mkKey P m rest) ≠ none
          then none else lookupA t (mkKey P m rest)) =
        (if mkKey P (m + c) rest ∈ mkKey P n restk :: ks ∧
            lookupA t (mkKey P (m + c) rest) ≠ none
          then lookupA t (mkKey P (m + c) rest)
          else if mkKey P m rest ∈ mkKey P n restk :: ks ∧
            lookupA t (mkKey P m rest) ≠ none
          then none else lookupA t (mkKey P m rest)) := by
      intro hKdead
      by_cases hsrc : mkKey P (m + c) rest ∈ ks ∧ lookupA t (mkKey P (m + c) rest) ≠ none
      · have hsrc2 : mkKey P (m + c) rest ∈ mkKey P n restk :: ks ∧
            lookupA t (mkKey P (m + c) rest) ≠ none :=
          ⟨List.mem_cons_of_mem _ hsrc.1, hsrc.2⟩
        rw [if_pos hsrc, if_pos hsrc2]
      · have hsrc2 : ¬(mkKey P (m + c) rest ∈ mkKey P n restk :: ks ∧
            lookupA t (mkKey P (m + c) rest) ≠ none) := by
          intro hc2
          rcases List.mem_cons.mp hc2.1 with he | he
          · exact hc2.2 (he ▸ hKdead)
          · exact hsrc ⟨he, hc2.2⟩
        rw [if_neg hsrc, if_neg hsrc2]
        by_cases hqq : mkKey P m rest ∈ ks ∧ lookupA t (mkKey P m rest) ≠ none
        · have hqq2 : mkKey P m rest ∈ mkKey P n restk :: ks ∧
              lookupA t (mkKey P m rest) ≠ none :=
            ⟨List.mem_cons_of_mem _ hqq.1, hqq.2⟩
          rw [if_pos hqq, if_pos hqq2]
        · have hqq2 : ¬(mkKey P m rest ∈ mkKey P n restk :: ks ∧
              lookupA t (mkKey P m rest) ≠ none) := by
            intro hc2
            rcases List.mem_cons.mp hc2.1 with he | he
            · exact hc2.2 (he ▸ hKdead)
            · exact hqq ⟨he, hc2.2⟩
          rw [if_neg hqq, if_neg hqq2]
    by_cases hnc : n < c
    · have hKdead : lookupA t (mkKey P n restk) = none :=
        hdead _ (List.mem_cons_self _ _) (by rw [idxOfKey_mkKey]; omega)
      rw [shiftStep_eval_skip_neg P c t n restk hnc,
        ih t hndt hndks.2 hsort.2 (fun x hx => hshape x (List.mem_cons_of_mem _ hx))
          (fun x hx hix => hdead x (List.mem_cons_of_mem _ hx) hix),
        skipCase hKdead]
    · have hcn : c ≤ n := le_of_not_lt hnc
      cases hKv : lookupA t (mkKey P n restk) with
      | none =>
        rw [shiftStep_eval_dead P c t n restk hcn hKv,
          ih t hndt hndks.2 hsort.2 (fun x hx => hshape x (List.mem_cons_of_mem _ hx))
            (fun x hx hix => hdead x (List.mem_cons_of_mem _ hx) hix),
          skipCase hKv]
      | some v =>
        have hnsc : s + c ≤ n := by
          by_contra hlt
          have hd2 := hdead _ (List.mem_cons_self _ _) (by rw [idxOfKey_mkKey]; omega)
          rw [hd2] at hKv
          exact Option.noConfusion hKv
        have hKalive : lookupA t (mkKey P n restk) ≠ none := by
          rw [hKv]
          exact fun hcc => Option.noConfusion hcc
        rw [shiftStep_eval_alive P c t n restk v hcn hrestk hKv]
        have hndt2 : (keysA (delA (setA t (mkKey P (n - c) restk) v)
            (mkKey P n restk))).Nodup := nodup_delA _ _ (nodup_setA _ _ _ hndt)
        have ht2 : ∀ x, lookupA (delA (setA t (mkKey P (n - c) restk) v)
            (mkKey P n restk)) x =
            if x = mkKey P n restk then none
            else if x = mkKey P (n - c) restk then some v
            else lookupA t x := by
          intro x
          rw [lookupA_delA _ _ _ (nodup_setA _ _ _ hndt), lookupA_setA]
        have hdead2 : ∀ x ∈ ks, idxOfKey P x < s + c →
            lookupA (delA (setA t (mkKey P (n - c) restk) v) (mkKey P n restk)) x
              = none := by
          intro x hx hix
          exact absurd (Nat.lt_of_lt_of_le hix hnsc) (Nat.not_lt_of_le (hKlt x hx))
        rw [ih _ hndt2 hndks.2 hsort.2 (fun x hx => hshape x (List.mem_cons_of_mem _ hx))
          hdead2]
        by_cases hsK : mkKey P (m + c) rest = mkKey P n restk
        · -- the head key is the source of the queried slot
          obtain ⟨hmc, hrr⟩ := mkKey_inj P _ _ _ _ hsK
          have hq_eq_NK : mkKey P m rest = mkKey P (n - c) restk := by
            rw [← hrr, show n - c = m by omega]
          have hsrc_not : ¬(mkKey P (m + c) rest ∈ ks ∧
              lookupA (delA (setA t (mkKey P (n - c) restk) v) (mkKey P n restk))
                (mkKey P (m + c) rest) ≠ none) :=
            fun hc2 => hndks.1 (hsK ▸ hc2.1)
          have hq_not : ¬(mkKey P m rest ∈ ks ∧
              lookupA (delA (setA t (mkKey P (n - c) restk) v) (mkKey P n restk))
                (mkKey P m rest) ≠ none) := by
            intro hc2
            have hx2 := hKlt _ hc2.1
            rw [hq_eq_NK, idxOfKey_mkKey] at hx2
            omega
          have hsrc2 : mkKey P (m + c) rest ∈ mkKey P n restk :: ks ∧
              lookupA t (mkKey P (m + c) rest) ≠ none := by
            refine ⟨by rw [hsK]; exact List.mem_cons_self _ _, ?_⟩
            rw [hsK]
            exact hKalive
          rw [if_neg hsrc_not, if_neg hq_not, if_pos hsrc2, ht2]
          have hqKne : ¬ mkKey P m rest = mkKey P n restk := by
            intro he
            have := (mkKey_inj P _ _ _ _ he).1
            omega
          rw [if_neg hqKne, if_pos hq_eq_NK, hsK, hKv]
        · by_cases hqK : mkKey P m rest = mkKey P n restk
          · -- the queried key itself is the head key: shifted away
            obtain ⟨hmn, hrr⟩ := mkKey_inj P _ _ _ _ hqK
            have hsrcNK : ¬ mkKey P (m + c) rest = mkKey P (n - c) restk := by
              intro he
              have := (mkKey_inj P _ _ _ _ he).1
              omega
            have hsrc_t2 : lookupA (delA (setA t (mkKey P (n - c) restk) v)
                (mkKey P n restk)) (mkKey P (m + c) rest) =
                lookupA t (mkKey P (m + c) rest) := by
              rw [ht2, if_neg hsK, if_neg hsrcNK]
            by_cases hsrc : mkKey P (m + c) rest ∈ ks ∧
                lookupA t (mkKey P (m + c) rest) ≠ none
            · have hA : mkKey P (m + c) rest ∈ ks ∧
                  lookupA (delA (setA t (mkKey P (n - c) restk) v) (mkKey P n restk))
                    (mkKey P (m + c) rest) ≠ none :=
                ⟨hsrc.1, by rw [hsrc_t2]; exact hsrc.2⟩
              have hB : mkKey P (m + c) rest ∈ mkKey P n restk :: ks ∧
                  lookupA t (mkKey P (m + c) rest) ≠ none :=
                ⟨List.mem_cons_of_mem _ hsrc.1, hsrc.2⟩
              rw [if_pos hA, if_pos hB, hsrc_t2]
            · have hA : ¬(mkKey P (m + c) rest ∈ ks ∧
                  lookupA (delA (setA t (mkKey P (n - c) restk) v) (mkKey P n restk))
                    (mkKey P (m + c) rest) ≠ none) :=
                fun hc2 => hsrc ⟨hc2.1, by rw [← hsrc_t2]; exact hc2.2⟩
              have hB : ¬(mkKey P (m + c) rest ∈ mkKey P n restk :: ks ∧
                  lookupA t (mkKey P (m + c) rest) ≠ none) := by
                intro hc2
                rcases List.mem_cons.mp hc2.1 with he | he
                · exact hsK he
                · exact hsrc ⟨he, hc2.2⟩
              rw [if_neg hA, if_neg hB]
              have hq_not : ¬(mkKey P m rest ∈ ks ∧
                  lookupA (delA (setA t (mkKey P (n - c) restk) v) (mkKey P n restk))
                    (mkKey P m rest) ≠ none) :=
                fun hc2 => hndks.1 (hqK ▸ hc2.1)
              have hq2 : mkKey P m rest ∈ mkKey P n restk :: ks ∧
                  lookupA t (mkKey P m rest) ≠ none := by
                refine ⟨by rw [hqK]; exact List.mem_cons_self _ _, ?_⟩
                rw [hqK]
                exact hKalive
              rw [if_neg hq_not, if_pos hq2, ht2, if_pos hqK]
          · -- the head key is neither the source nor the query
            have hq_NK : ¬ mkKey P m rest = mkKey P (n - c) restk := by
              intro he
              obtain ⟨hmn, hrr⟩ := mkKey_inj P _ _ _ _ he
              exact hsK (by rw [← hrr, show m + c = n by omega])
            have hq_t2 : lookupA (delA (setA t (mkKey P (n - c) restk) v)
                (mkKey P n restk)) (mkKey P m rest) = lookupA t (mkKey P m rest) := by
              rw [ht2, if_neg hqK, if_neg hq_NK]
            by_cases hsNK : mkKey P (m + c) rest = mkKey P (n - c) restk
            · obtain ⟨hmc, hrr⟩ := mkKey_inj P _ _ _ _ hsNK
              have hsrc_not_mem : mkKey P (m + c) rest ∉ ks := by
                intro hmem
                have hx2 := hKlt _ hmem
                rw [idxOfKey_mkKey] at hx2
                omega
              have hA : ¬(mkKey P (m + c) rest ∈ ks ∧
                  lookupA (delA (setA t (mkKey P (n - c) restk) v) (mkKey P n restk))
                    (mkKey P (m + c) rest) ≠ none) :=
                fun hc2 => hsrc_not_mem hc2.1
              have hB : ¬(mkKey P (m + c) rest ∈ mkKey P n restk :: ks ∧
                  lookupA t (mkKey P (m + c) rest) ≠ none) := by
                intro hc2
                rcases List.mem_cons.mp hc2.1 with he | he
                · exact hsK he
                · exact hsrc_not_mem he
              rw [if_neg hA, if_neg hB]
              by_cases hqq : mkKey P m rest ∈ ks ∧ lookupA t (mkKey P m rest) ≠ none
              · have hC : mkKey P m rest ∈ ks ∧
                    lookupA (delA (setA t (mkKey P (n - c) restk) v) (mkKey P n restk))
                      (mkKey P m rest) ≠ none :=
                  ⟨hqq.1, by rw [hq_t2]; exact hqq.2⟩
                have hD : mkKey P m rest ∈ mkKey P n restk :: ks ∧
                    lookupA t (mkKey P m rest) ≠ none :=
                  ⟨List.mem_cons_of_mem _ hqq.1, hqq.2⟩
                rw [if_pos hC, if_pos hD]
              · have hC : ¬(mkKey P m rest ∈ ks ∧
                    lookupA (delA (setA t (mkKey P (n - c) restk) v) (mkKey P n restk))
                      (mkKey P m rest) ≠ none) :=
                  fun hc2 => hqq ⟨hc2.1, by rw [← hq_t2]; exact hc2.2⟩
                have hD : ¬(mkKey P m rest ∈ mkKey P n restk :: ks ∧
                    lookupA t (mkKey P m rest) ≠ none) := by
                  intro hc2
                  rcases List.mem_cons.mp hc2.1 with he | he
                  · exact hqK he
                  · exact hqq ⟨he, hc2.2⟩
                rw [if_neg hC, if_neg hD, hq_t2]
            · have hsrc_t2 : lookupA (delA (setA t (mkKey P (n - c) restk) v)
                  (mkKey P n restk)) (mkKey P (m + c) rest) =
                  lookupA t (mkKey P (m + c) rest) := by
                rw [ht2, if_neg hsK, if_neg hsNK]
              by_cases hsrc : mkKey P (m + c) rest ∈ ks ∧
                  lookupA t (mkKey P (m + c) rest) ≠ none
              · have hA : mkKey P (m + c) rest ∈ ks ∧
                    lookupA (delA (setA t (mkKey P (n - c) restk) v) (mkKey P n restk))
                      (mkKey P (m + c) rest) ≠ none :=
                  ⟨hsrc.1, by rw [hsrc_t2]; exact hsrc.2⟩
                have hB : mkKey P (m + c) rest ∈ mkKey P n restk :: ks ∧
                    lookupA t (mkKey P (m + c) rest) ≠ none :=
                  ⟨List.mem_cons_of_mem _ hsrc.1, hsrc.2⟩
                rw [if_pos hA, if_pos hB, hsrc_t2]
              · have hA : ¬(mkKey P (m + c) rest ∈ ks ∧
                    lookupA (delA (setA t (mkKey P (n - c) restk) v) (mkKey P n restk))
                      (mkKey P (m + c) rest) ≠ none) :=
                  fun hc2 => hsrc ⟨hc2.1, by rw [← hsrc_t2]; exact hc2.2⟩
                have hB : ¬(mkKey P (m + c) rest ∈ mkKey P n restk :: ks ∧
                    lookupA t (mkKey P (m + c) rest) ≠ none) := by
                  intro hc2
                  rcases List.mem_cons.mp hc2.1 with he | he
                  · exact hsK he
                  · exact hsrc ⟨he, hc2.2⟩
                rw [if_neg hA, if_neg hB]
                by_cases hqq : mkKey P m rest ∈ ks ∧ lookupA t (mkKey P m rest) ≠ none
                · have hC : mkKey P m rest ∈ ks ∧
                      lookupA (delA (setA t (mkKey P (n - c) restk) v) (mkKey P n restk))
                        (mkKey P m rest) ≠ none :=
                    ⟨hqq.1, by rw [hq_t2]; exact hqq.2⟩
                  have hD : mkKey P m rest ∈ mkKey P n restk :: ks ∧
                      lookupA t (mkKey P m rest) ≠ none :=
                    ⟨List.mem_cons_of_mem _ hqq.1, hqq.2⟩
                  rw [if_pos hC, if_pos hD]
                · have hC : ¬(mkKey P m rest ∈ ks ∧
                      lookupA (delA (setA t (mkKey P (n - c) restk) v) (mkKey P n restk))
                        (mkKey P m rest) ≠ none) :=
                    fun hc2 => hqq ⟨hc2.1, by rw [← hq_t2]; exact hc2.2⟩
                  have hD : ¬(mkKey P m rest ∈ mkKey P n restk :: ks ∧
                      lookupA t (mkKey P m rest) ≠ none) := by
                    intro hc2
                    rcases List.mem_cons.mp hc2.1 with he | he
                    · exact hqK he
                    · exact hqq ⟨he, hc2.2⟩
                  rw [if_neg hC, if_neg hD, hq_t2]

/-- C2: the removal remapper deletes the bookkeeping of every key whose
ordinal lies in the removed window `[start, start+count)` and rewrites every
remaining key with ordinal at least `start+count` down by `count`, values
preserved; stated as a slot characterization: below `start` nothing moves,
and from `start` upward the slot of ordinal `idx` afterwards holds exactly
what the slot of ordinal `idx + count` held before.  Keys not under the
array path are untouched. -/
theorem c2_removal_remap (touched : List (Str × Bool)) (P : Str) (s c : Nat)
    (hnd : (keysA touched).Nodup)
    (hwf : ∀ k ∈ keysA touched, startsWithS k (P ++ str ".") = true →
      ∃ idx rest, k = mkKey P idx rest ∧ rest ≠ some [])
    (hc : 1 ≤ c) :
    (∀ (idx : Nat) (rest : Option Str), rest ≠ some [] →
      lookupA (syncTouchedStateForArrayRemoval touched P s c) (mkKey P idx rest) =
        if idx < s then lookupA touched (mkKey P idx rest)
        else lookupA touched (mkKey P (idx + c) rest)) ∧
    (∀ q : Str, ¬ startsWithS q (P ++ str ".") = true →
      lookupA (syncTouchedStateForArrayRemoval touched P s c) q = lookupA touched q) := by
  have hfold : ((List.range c).map (fun i => s + i)).foldl (fun acc i =>
      ((getTouchedKeysForArray touched P).filter (matchIdx P i)).foldl delA acc) touched =
      (List.range c).foldl (fun acc i =>
      ((getTouchedKeysForArray touched P).filter (matchIdx P (s + i))).foldl delA acc)
      touched := by
    rw [List.foldl_map]
  have hmain : syncTouchedStateForArrayRemoval touched P s c =
      (List.insertionSort (leIdx P) ((getTouchedKeysForArray touched P).filter fun k =>
        match splitRaw P k with
        | some (ds, _) => decide (s ≤ decParse ds)
        | none => false)).foldl (shiftStep P (-(c : Int)))
        (((List.range c).map (fun i => s + i)).foldl (fun acc i =>
          ((getTouchedKeysForArray touched P).filter (matchIdx P i)).foldl delA acc)
          touched) := by
    rw [hfold]
    unfold syncTouchedStateForArrayRemoval shiftArrayIndicesInTouchedState
    dsimp only
    rw [if_neg (show ¬ (-(c : Int) > 0) by omega)]
  have hmemTK : ∀ k : Str, k ∈ getTouchedKeysForArray touched P ↔
      k ∈ keysA touched ∧ startsWithS k (P ++ str ".") = true := by
    intro k
    unfold getTouchedKeysForArray
    rw [List.mem_filter]
    constructor
    · rintro ⟨h1, h2⟩
      rw [Bool.and_eq_true] at h2
      exact ⟨h1, h2.1⟩
    · rintro ⟨h1, h2⟩
      refine ⟨h1, ?_⟩
      rw [Bool.and_eq_true]
      exact ⟨h2, decide_eq_true (ne_of_dot_prefixed k P h2)⟩
  have hmemShift : ∀ (j : Nat) (r : Option Str),
      mkKey P j r ∈ ((getTouchedKeysForArray touched P).filter fun k =>
        match splitRaw P k with
        | some (ds, _) => decide (s ≤ decParse ds)
        | none => false) ↔ mkKey P j r ∈ keysA touched ∧ s ≤ j := by
    intro j r
    rw [List.mem_filter]
    constructor
    · rintro ⟨h1, h2⟩
      rw [splitRaw_mkKey] at h2
      dsimp only at h2
      refine ⟨((hmemTK _).mp h1).1, ?_⟩
      rw [decParse_decRepr] at h2
      exact of_decide_eq_true h2
    · rintro ⟨h1, h2⟩
      refine ⟨(hmemTK _).mpr ⟨h1, startsWithS_mkKey P j r⟩, ?_⟩
      rw [splitRaw_mkKey]
      dsimp only
      rw [decParse_decRepr]
      exact decide_eq_true h2
  have hndTK : (getTouchedKeysForArray touched P).Nodup := List.Nodup.filter _ hnd
  have hndShift : (((getTouchedKeysForArray touched P).filter fun k =>
      match splitRaw P k with
      | some (ds, _) => decide (s ≤ decParse ds)
      | none => false)).Nodup := List.Nodup.filter _ hndTK
  have hndSorted := (List.perm_insertionSort (leIdx P)
    ((getTouchedKeysForArray touched P).filter fun k =>
      match splitRaw P k with
      | some (ds, _) => decide (s ≤ decParse ds)
      | none => false)).nodup_iff.mpr hndShift
  have hmemSorted : ∀ k : Str, k ∈ List.insertionSort (leIdx P)
      ((getTouchedKeysForArray touched P).filter fun k =>
        match splitRaw P k with
        | some (ds, _) => decide (s ≤ decParse ds)
        | none => false) ↔
      k ∈ ((getTouchedKeysForArray touched P).filter fun k =>
        match splitRaw P k with
        | some (ds, _) => decide (s ≤ decParse ds)
        | none => false) := by
    intro k
    exact (List.perm_insertionSort _ _).mem_iff
  have hndAfter : (keysA (((List.range c).map (fun i => s + i)).foldl (fun acc i =>
      ((getTouchedKeysForArray touched P).filter (matchIdx P i)).foldl delA acc)
      touched)).Nodup :=
    afterDelete_nodup P ((List.range c).map (fun i => s + i))
      (getTouchedKeysForArray touched P) touched hnd
  have hafterDel : ∀ (j : Nat) (r : Option Str),
      lookupA (((List.range c).map (fun i => s + i)).foldl (fun acc i =>
        ((getTouchedKeysForArray touched P).filter (matchIdx P i)).foldl delA acc)
        touched) (mkKey P j r) =
      if s ≤ j ∧ j < s + c then none else lookupA touched (mkKey P j r) := by
    intro j r
    rw [afterDelete_lookup P ((List.range c).map (fun i => s + i))
      (getTouchedKeysForArray touched P) touched (mkKey P j r) hnd]
    by_cases hj : s ≤ j ∧ j < s + c
    · rw [if_pos hj]
      by_cases hk : mkKey P j r ∈ keysA touched
      · have hany : ((((List.range c).map (fun i => s + i)).any
            fun i => matchIdx P i (mkKey P j r))) = true := by
          rw [List.any_eq_true]
          exact ⟨j, List.mem_map.mpr ⟨j - s, List.mem_range.mpr (by omega),
            show s + (j - s) = j by omega⟩, (matchIdx_mkKey P j j r).mpr rfl⟩
        rw [if_pos ⟨hany, (hmemTK _).mpr ⟨hk, startsWithS_mkKey P j r⟩⟩]
      · have hnotc : ¬(((((List.range c).map (fun i => s + i)).any
            fun i => matchIdx P i (mkKey P j r))) = true ∧
            mkKey P j r ∈ getTouchedKeysForArray touched P) :=
          fun hc2 => hk ((hmemTK _).mp hc2.2).1
        rw [if_neg hnotc, lookupA_eq_none_of_not_mem _ _ hk]
    · have hnotc : ¬(((((List.range c).map (fun i => s + i)).any
          fun i => matchIdx P i (mkKey P j r))) = true ∧
          mkKey P j r ∈ getTouchedKeysForArray touched P) := by
        intro hc2
        obtain ⟨hany, _⟩ := hc2
        rw [List.any_eq_true] at hany
        obtain ⟨i, hi, hmi⟩ := hany
        obtain ⟨i0, hi0, hieq⟩ := List.mem_map.mp hi
        subst hieq
        rw [matchIdx_mkKey] at hmi
        rw [List.mem_range] at hi0
        omega
      rw [if_neg hnotc, if_neg hj]
  have hshapeSorted : ∀ k ∈ List.insertionSort (leIdx P)
      ((getTouchedKeysForArray touched P).filter fun k =>
        match splitRaw P k with
        | some (ds, _) => decide (s ≤ decParse ds)
        | none => false),
      ∃ n restk, k = mkKey P n restk ∧ restk ≠ some [] ∧ s ≤ n := by
    intro k hk
    rw [hmemSorted, List.mem_filter] at hk
    obtain ⟨h1, h2⟩ := hk
    obtain ⟨h1a, h1b⟩ := (hmemTK _).mp h1
    obtain ⟨n, restk, hkeq, hrestk⟩ := hwf k h1a h1b
    refine ⟨n, restk, hkeq, hrestk, ?_⟩
    rw [hkeq, splitRaw_mkKey] at h2
    dsimp only at h2
    rw [decParse_decRepr] at h2
    exact of_decide_eq_true h2
  have hdeadSorted : ∀ k ∈ List.insertionSort (leIdx P)
      ((getTouchedKeysForArray touched P).filter fun k =>
        match splitRaw P k with
        | some (ds, _) => decide (s ≤ decParse ds)
        | none => false),
      idxOfKey P k < s + c →
      lookupA (((List.range c).map (fun i => s + i)).foldl (fun acc i =>
        ((getTouchedKeysForArray touched P).filter (matchIdx P i)).foldl delA acc)
        touched) k = none := by
    intro k hk hik
    obtain ⟨n, restk, hkeq, hrestk, hsn⟩ := hshapeSorted k hk
    subst hkeq
    rw [idxOfKey_mkKey] at hik
    rw [hafterDel n restk, if_pos ⟨hsn, hik⟩]
  constructor
  · intro idx rest hrest
    rw [hmain, shift_fold_lookup_rm P s c hc idx rest hrest _ _ hndAfter hndSorted
      (List.sorted_insertionSort _ _) hshapeSorted hdeadSorted]
    by_cases hidx : idx < s
    · have hsrc_not : ¬(mkKey P (idx + c) rest ∈ List.insertionSort (leIdx P)
          ((getTouchedKeysForArray touched P).filter fun k =>
            match splitRaw P k with
            | some (ds, _) => decide (s ≤ decParse ds)
            | none => false) ∧
          lookupA (((List.range c).map (fun i => s + i)).foldl (fun acc i =>
            ((getTouchedKeysForArray touched P).filter (matchIdx P i)).foldl delA acc)
            touched) (mkKey P (idx + c) rest) ≠ none) := by
        intro hc2
        by_cases hcc : s ≤ idx + c
        · exact hc2.2 (by rw [hafterDel, if_pos ⟨hcc, by omega⟩])
        · rw [hmemSorted, hmemShift] at hc2
          omega
      have hq_not : ¬(mkKey P idx rest ∈ List.insertionSort (leIdx P)
          ((getTouchedKeysForArray touched P).filter fun k =>
            match splitRaw P k with
            | some (ds, _) => decide (s ≤ decParse ds)
            | none => false) ∧
          lookupA (((List.range c).map (fun i => s + i)).foldl (fun acc i =>
            ((getTouchedKeysForArray touched P).filter (matchIdx P i)).foldl delA acc)
            touched) (mkKey P idx rest) ≠ none) := by
        intro hc2
        rw [hmemSorted, hmemShift] at hc2
        omega
      rw [if_neg hsrc_not, if_neg hq_not, if_pos hidx, hafterDel,
        if_neg (by omega : ¬(s ≤ idx ∧ idx < s + c))]
    · rw [if_neg hidx]
      have hs_le : s ≤ idx := le_of_not_lt hidx
      have hsrcAfter : lookupA (((List.range c).map (fun i => s + i)).foldl (fun acc i =>
          ((getTouchedKeysForArray touched P).filter (matchIdx P i)).foldl delA acc)
          touched) (mkKey P (idx + c) rest) = lookupA touched (mkKey P (idx + c) rest) := by
        rw [hafterDel, if_neg (by omega : ¬(s ≤ idx + c ∧ idx + c < s + c))]
      by_cases hsrc_mem : mkKey P (idx + c) rest ∈ keysA touched
      · obtain ⟨v, hv⟩ := lookupA_isSome_of_mem touched _ hsrc_mem
        have hcond : mkKey P (idx + c) rest ∈ List.insertionSort (leIdx P)
            ((getTouchedKeysForArray touched P).filter fun k =>
              match splitRaw P k with
              | some (ds, _) => decide (s ≤ decParse ds)
              | none => false) ∧
            lookupA (((List.range c).map (fun i => s + i)).foldl (fun acc i =>
              ((getTouchedKeysForArray touched P).filter (matchIdx P i)).foldl delA acc)
              touched) (mkKey P (idx + c) rest) ≠ none := by
          refine ⟨?_, ?_⟩
          · rw [hmemSorted, hmemShift]
            exact ⟨hsrc_mem, by omega⟩
          · rw [hsrcAfter, hv]
            exact fun hcc => Option.noConfusion hcc
        rw [if_pos hcond, hsrcAfter]
      · have hsrcNone : lookupA touched (mkKey P (idx + c) rest) = none :=
          lookupA_eq_none_of_not_mem _ _ hsrc_mem
        have hcond_not : ¬(mkKey P (idx + c) rest ∈ List.insertionSort (leIdx P)
            ((getTouchedKeysForArray touched P).filter fun k =>
              match splitRaw P k with
              | some (ds, _) => decide (s ≤ decParse ds)
              | none => false) ∧
            lookupA (((List.range c).map (fun i => s + i)).foldl (fun acc i =>
              ((getTouchedKeysForArray touched P).filter (matchIdx P i)).foldl delA acc)
              touched) (mkKey P (idx + c) rest) ≠ none) := by
          intro hc2
          exact hc2.2 (by rw [hsrcAfter, hsrcNone])
        rw [if_neg hcond_not, hsrcNone]
        by_cases hqcond : mkKey P idx rest ∈ List.insertionSort (leIdx P)
            ((getTouchedKeysForArray touched P).filter fun k =>
              match splitRaw P k with
              | some (ds, _) => decide (s ≤ decParse ds)
              | none => false) ∧
            lookupA (((List.range c).map (fun i => s + i)).foldl (fun acc i =>
              ((getTouchedKeysForArray touched P).filter (matchIdx P i)).foldl delA acc)
              touched) (mkKey P idx rest) ≠ none
        · rw [if_pos hqcond]
        · rw [if_neg hqcond]
          by_cases hin : idx < s + c
          · rw [hafterDel, if_pos ⟨hs_le, hin⟩]
          · rw [hafterDel, if_neg (by omega : ¬(s ≤ idx ∧ idx < s + c))]
            by_cases hq_mem : mkKey P idx rest ∈ keysA touched
            · exfalso
              obtain ⟨v, hv⟩ := lookupA_isSome_of_mem touched _ hq_mem
              refine hqcond ⟨?_, ?_⟩
              · rw [hmemSorted, hmemShift]
                exact ⟨hq_mem, hs_le⟩
              · rw [hafterDel, if_neg (by omega : ¬(s ≤ idx ∧ idx < s + c)), hv]
                exact fun hcc => Option.noConfusion hcc
            · exact lookupA_eq_none_of_not_mem _ _ hq_mem
  · intro q hq
    rw [hmain, shift_fold_frame P (-(c : Int)) _ _ q hndAfter hq,
      afterDelete_lookup P ((List.range c).map (fun i => s + i))
        (getTouchedKeysForArray touched P) touched q hnd]
    have hnotc : ¬(((((List.range c).map (fun i => s + i)).any
        fun i => matchIdx P i q)) = true ∧
        q ∈ getTouchedKeysForArray touched P) := by
      intro hc2
      obtain ⟨hany, _⟩ := hc2
      rw [List.any_eq_true] at hany
      obtain ⟨i, hi, hmi⟩ := hany
      rw [matchIdx_false_of_not_prefixed P i q hq] at hmi
      exact Bool.noConfusion hmi
    rw [if_neg hnotc]

theorem c2_removal_remap_witness :
    lookupA (syncTouchedStateForArrayRemoval
      [(str "A.0.x", true), (str "A.1.x", true)] (str "A") 0 1) (str "A.0.x") = some true ∧
    lookupA (syncTouchedStateForArrayRemoval
      [(str "A.0.x", true), (str "A.1.x", true)] (str "A") 0 1) (str "A.1.x") = none := by
  have hwf : ∀ k ∈ keysA [(str "A.0.x", true), (str "A.1.x", true)],
      startsWithS k (str "A" ++ str ".") = true →
      ∃ idx rest, k = mkKey (str "A") idx rest ∧ rest ≠ some [] := by
    intro k hk _
    rw [show keysA [(str "A.0.x", true), (str "A.1.x", true)] =
      [str "A.0.x", str "A.1.x"] from rfl] at hk
    rcases List.mem_cons.mp hk with h | hk2
    · subst h
      exact ⟨0, some (str "x"), by decide, by decide⟩
    · rcases List.mem_cons.mp hk2 with h | h3
      · subst h
        exact ⟨1, some (str "x"), by decide, by decide⟩
      · exact absurd h3 (by simp)
  obtain ⟨h1, _⟩ := c2_removal_remap [(str "A.0.x", true), (str "A.1.x", true)]
    (str "A") 0 1 (by decide) hwf (by decide)
  constructor
  · have h := h1 0 (some (str "x")) (by decide)
    rw [show mkKey (str "A") 0 (some (str "x")) = str "A.0.x" from rfl,
      if_neg (by decide : ¬(0 < 0))] at h
    rw [h]
    decide
  · have h := h1 1 (some (str "x")) (by decide)
    rw [show mkKey (str "A") 1 (some (str "x")) = str "A.1.x" from rfl,
      if_neg (by decide : ¬(1 < 0))] at h
    rw [h]
    decide
